import Mathlib

/-!
# Bloom filter (`bloomfilter/bloomfilter.go`)

A shallow embedding of the Go package `bloomfilter`.

* `uint64` values are natural numbers; every operation that can wrap in Go is
  written with an explicit `% 2 ^ 64`.
* A `[]uint64` slice is a `List Nat`.
* A Go run-time panic (index out of range, integer divide by zero) is the
  result `none`; a normal return is `some _`.
* A Go `error` is an `Option String`: `none` is `nil`, `some msg` is
  `errors.New(msg)`.
* The base hash `xxhash.Sum64` comes from another module; every definition that
  hashes takes it as the parameter `Sum64` and reduces its value to 64 bits.
* `New` is the filter that the Go function builds; `NewAlloc` adds the panic of
  `make` beyond the limit of the allocator, a parameter of the run time.
* The conversion `float64(n)` is the integer the float denotes
  (`float64OfUint64`); the functions of the Go library `math` are parameters of
  `CalcParamsWithFPR`.
-/

namespace bloomfilter

/-- A byte sequence (`[]byte`). -/
abbrev Bytes := List (Fin 256)

/-- The Go struct `BloomFilter`: fields `m`, `k` and the word slice `bit`. -/
structure BloomFilter where
  m : Nat
  k : Nat
  bit : List Nat
  deriving DecidableEq, Repr

/-- The message of the error built when the two sizes differ. -/
def errMismatchedSizes : String := "bloom filters have mismatched sizes"

/-- The message of the error built when the two hash counts differ. -/
def errMismatchedHashCounts : String := "bloom filters have mismatched hash counts"

/-- The function `computeHashes`: the base hash and its avalanche mix. -/
def computeHashes (Sum64 : Bytes → Nat) (data : Bytes) : Nat × Nat :=
  let h1 := Sum64 data % 2 ^ 64
  let h2 := h1 ^^^ 0x8E3C5B2F1A0D9E74
  let h2 := (h2 * 0x9E3779B97F4A7C15) % 2 ^ 64
  let h2 := h2 ^^^ (h2 >>> 33)
  (h1, h2)

/-- The function `getIndices`: `h := h1 + i*h2` in wrapping 64-bit arithmetic,
then `h % m`, which panics when `m` is zero. -/
def getIndices (h1 h2 i m : Nat) : Option Nat :=
  let h := (h1 + (i * h2) % 2 ^ 64) % 2 ^ 64
  if m = 0 then none else some (h % m)

/-- The length expression `(m+63)/64` of `New` and `Clear`, in `uint64`. -/
def wordCount (m : Nat) : Nat := ((m + 63) % 2 ^ 64) / 64

/-- The function `New`: the filter it returns when `make` returns. The panic of
`make` on a length beyond the limit of the allocator is in `NewAlloc`. -/
def New (m k : Nat) : BloomFilter :=
  { m := m, k := k, bit := List.replicate (wordCount m) 0 }

/-- The allocation `make([]uint64, n)`: a slice of `n` zero words when `n` is
within the limit of the allocator, and a panic (`makeslice: len out of range`)
beyond it. The limit belongs to the Go run time, not to this package; it is the
parameter `maxWords`. -/
def makeWords (maxWords n : Nat) : Option (List Nat) :=
  if n ≤ maxWords then some (List.replicate n 0) else none

/-- The function `New` with its allocation: it panics when `make` does and
returns the filter otherwise. It has no other way to fail: the Go function has
the one result `*BloomFilter` and no `error`. -/
def NewAlloc (maxWords m k : Nat) : Option BloomFilter :=
  (makeWords maxWords (wordCount m)).map (fun bit => { m := m, k := k, bit := bit })

/-- The expression `uint64(1) << uint64(bit%64)`. -/
def bitMask (b : Nat) : Nat := (1 <<< (b % 64)) % 2 ^ 64

/-- The loop of `Add`, with `n` iterations left and loop variable `i`. -/
def addLoop (h1 h2 m : Nat) : Nat → Nat → List Nat → Option (List Nat)
  | 0, _, bit => some bit
  | n + 1, i, bit =>
    match getIndices h1 h2 i m with
    | none => none
    | some b =>
      match bit[b / 64]? with
      | none => none
      | some w => addLoop h1 h2 m n (i + 1) (bit.set (b / 64) (w ||| bitMask b))

/-- The method `Add`. -/
def Add (Sum64 : Bytes → Nat) (bf : BloomFilter) (data : Bytes) : Option BloomFilter :=
  let h := computeHashes Sum64 data
  (addLoop h.1 h.2 bf.m bf.k 0 bf.bit).map (fun bit => { bf with bit := bit })

/-- The loop of `Contains`, with `n` iterations left and loop variable `i`. -/
def containsLoop (h1 h2 m : Nat) (bit : List Nat) : Nat → Nat → Option Bool
  | 0, _ => some true
  | n + 1, i =>
    match getIndices h1 h2 i m with
    | none => none
    | some b =>
      match bit[b / 64]? with
      | none => none
      | some w => if bitMask b &&& w = 0 then some false else containsLoop h1 h2 m bit n (i + 1)

/-- The method `Contains`. -/
def Contains (Sum64 : Bytes → Nat) (bf : BloomFilter) (data : Bytes) : Option Bool :=
  let h := computeHashes Sum64 data
  containsLoop h.1 h.2 bf.m bf.bit bf.k 0

/-- The method `Clear`. -/
def Clear (bf : BloomFilter) : BloomFilter :=
  { bf with bit := List.replicate (wordCount bf.m) 0 }

/-- The error computed by the two checks that open `Union`, `Intersection` and
`Subset`: the second assignment overwrites the first. -/
def mismatchError (bf1 bf2 : BloomFilter) : Option String :=
  let err : Option String := none
  let err := if bf1.m ≠ bf2.m then some errMismatchedSizes else err
  let err := if bf1.k ≠ bf2.k then some errMismatchedHashCounts else err
  err

/-- The loop `for i := range bf1.bit { bf1.bit[i] op= bf2.bit[i] }` of `Union`
(`op` is `|`) and `Intersection` (`op` is `&`), with `n` iterations left. -/
def combineLoop (op : Nat → Nat → Nat) (bit2 : List Nat) : Nat → Nat → List Nat → Option (List Nat)
  | 0, _, bit1 => some bit1
  | n + 1, i, bit1 =>
    match bit1[i]? with
    | none => none
    | some a =>
      match bit2[i]? with
      | none => none
      | some b => combineLoop op bit2 n (i + 1) (bit1.set i (op a b))

/-- The method `Union`: the new receiver and the returned error. -/
def Union (bf1 bf2 : BloomFilter) : Option (BloomFilter × Option String) :=
  let err := mismatchError bf1 bf2
  (combineLoop (fun a b => a ||| b) bf2.bit bf1.bit.length 0 bf1.bit).map
    (fun bit => ({ bf1 with bit := bit }, err))

/-- The method `Intersection`: the new receiver and the returned error. -/
def Intersection (bf1 bf2 : BloomFilter) : Option (BloomFilter × Option String) :=
  let err := mismatchError bf1 bf2
  (combineLoop (fun a b => a &&& b) bf2.bit bf1.bit.length 0 bf1.bit).map
    (fun bit => ({ bf1 with bit := bit }, err))

/-- The loop of `Subset`, with `n` iterations left and loop variable `i`. -/
def subsetLoop (bit1 bit2 : List Nat) : Nat → Nat → Option Bool
  | 0, _ => some true
  | n + 1, i =>
    match bit1[i]? with
    | none => none
    | some a =>
      match bit2[i]? with
      | none => none
      | some b => if a &&& b ≠ b then some false else subsetLoop bit1 bit2 n (i + 1)

/-- The method `Subset`: the returned error and the returned boolean. -/
def Subset (bf1 bf2 : BloomFilter) : Option (Option String × Bool) :=
  let err := mismatchError bf1 bf2
  (subsetLoop bf1.bit bf2.bit bf1.bit.length 0).map (fun isSubset => (err, isSubset))

/-- The library function `bits.OnesCount64`: the number of one bits among the
64 bits of a word. -/
def OnesCount64 (v : Nat) : Nat := (List.range 64).countP (fun t => v.testBit t)

/-- The loop of `CountZeroBits`: `cnt += uint64(bits.OnesCount64(v))`. -/
def countLoop : List Nat → Nat → Nat
  | [], cnt => cnt
  | v :: rest, cnt => countLoop rest ((cnt + OnesCount64 v) % 2 ^ 64)

/-- The function `CountZeroBits`: the subtraction `bf.m - cnt` wraps. -/
def CountZeroBits (bf : BloomFilter) : Nat :=
  let cnt := countLoop bf.bit 0
  (bf.m + 2 ^ 64 - cnt) % 2 ^ 64

/-! ## Notions used to state the properties -/

/-- The bit at position `b` of a word slice: word `b/64`, offset `b%64`; a
position beyond the slice holds no bit. -/
def testBitAt (bit : List Nat) (b : Nat) : Bool :=
  match bit[b / 64]? with
  | some w => w.testBit (b % 64)
  | none => false

/-- The number of positions in `[0, m)` whose bit is zero. -/
def zeroPositions (bit : List Nat) (m : Nat) : Nat :=
  (List.range m).countP (fun b => !testBitAt bit b)

/-- The sum of the population counts of all words. -/
def popcountAll (bit : List Nat) : Nat := (bit.map OnesCount64).sum

/-- The shape every filter has: the slice is as long as `New` and `Clear` make
it and every word is a 64-bit value. -/
def WellFormed (bf : BloomFilter) : Prop :=
  bf.bit.length = wordCount bf.m ∧ ∀ w ∈ bf.bit, w < 2 ^ 64

instance (bf : BloomFilter) : Decidable (WellFormed bf) := by
  unfold WellFormed
  infer_instance

/-- The filters reachable from `New m k` by `Add`, `Clear`, and by `Union` and
`Intersection` with filters reachable from the same `New m k`; only calls that
return (do not panic) produce a successor. -/
inductive Reachable (Sum64 : Bytes → Nat) (m k : Nat) : BloomFilter → Prop
  | new : Reachable Sum64 m k (New m k)
  | add {bf bf1 : BloomFilter} (d : Bytes) :
      Reachable Sum64 m k bf → Add Sum64 bf d = some bf1 → Reachable Sum64 m k bf1
  | clear {bf : BloomFilter} : Reachable Sum64 m k bf → Reachable Sum64 m k (Clear bf)
  | union {bf1 bf2 bf3 : BloomFilter} {err : Option String} :
      Reachable Sum64 m k bf1 → Reachable Sum64 m k bf2 →
      Union bf1 bf2 = some (bf3, err) → Reachable Sum64 m k bf3
  | intersection {bf1 bf2 bf3 : BloomFilter} {err : Option String} :
      Reachable Sum64 m k bf1 → Reachable Sum64 m k bf2 →
      Intersection bf1 bf2 = some (bf3, err) → Reachable Sum64 m k bf3

/-- The state after a sequence of `Add` calls, `none` once a call panicked. -/
def addAll (Sum64 : Bytes → Nat) (bf : BloomFilter) : List Bytes → Option BloomFilter
  | [] => some bf
  | d :: ds => (Add Sum64 bf d).bind (fun bf1 => addAll Sum64 bf1 ds)

/-- The value `getIndices` returns when it returns: `(h1 + i*h2 mod 2^64) mod m`. -/
def probe (h1 h2 m i : Nat) : Nat := ((h1 + (i * h2) % 2 ^ 64) % 2 ^ 64) % m

/-- The bits that the iterations `i, …, i+n-1` of the loop of `Add` put into
word `j`. -/
def probeMask (h1 h2 m : Nat) : Nat → Nat → Nat → Nat
  | 0, _, _ => 0
  | n + 1, i, j =>
    (if probe h1 h2 m i / 64 = j then bitMask (probe h1 h2 m i) else 0)
      ||| probeMask h1 h2 m n (i + 1) j

/-- The ceiling of `m/64`, the number of words the specification gives the bit
array of a filter of `m` bits. -/
def ceilWords (m : Nat) : Nat := if m % 64 = 0 then m / 64 else m / 64 + 1

/-! ## Basic facts -/

theorem bitMask_eq (b : Nat) : bitMask b = 2 ^ (b % 64) := by
  unfold bitMask
  rw [Nat.one_shiftLeft]
  apply Nat.mod_eq_of_lt
  exact Nat.pow_lt_pow_right (by decide) (Nat.mod_lt _ (by decide))

theorem bitMask_lt (b : Nat) : bitMask b < 2 ^ 64 := by
  rw [bitMask_eq]
  exact Nat.pow_lt_pow_right (by decide) (Nat.mod_lt _ (by decide))

theorem testBit_bitMask (b t : Nat) : (bitMask b).testBit t = decide (b % 64 = t) := by
  rw [bitMask_eq, Nat.testBit_two_pow]

theorem bitMask_land_eq_zero (b w : Nat) :
    bitMask b &&& w = 0 ↔ w.testBit (b % 64) = false := by
  constructor
  · intro h
    have h1 := congrArg (fun x => x.testBit (b % 64)) h
    simpa [testBit_bitMask] using h1
  · intro h
    apply Nat.eq_of_testBit_eq
    intro t
    rw [Nat.testBit_and, testBit_bitMask, Nat.zero_testBit]
    by_cases ht : b % 64 = t
    · subst ht
      simp [h]
    · simp [ht]

theorem getIndices_eq (h1 h2 i m : Nat) (hm : m ≠ 0) :
    getIndices h1 h2 i m = some (probe h1 h2 m i) := by
  simp [getIndices, probe, hm]

theorem getIndices_zero (h1 h2 i : Nat) : getIndices h1 h2 i 0 = none := by
  simp [getIndices]

theorem probe_lt (h1 h2 m i : Nat) (hm : m ≠ 0) : probe h1 h2 m i < m :=
  Nat.mod_lt _ (Nat.pos_of_ne_zero hm)

theorem wordCount_eq (m : Nat) (h : m + 63 < 2 ^ 64) : wordCount m = (m + 63) / 64 := by
  unfold wordCount
  rw [Nat.mod_eq_of_lt h]

theorem div_lt_wordCount (m b : Nat) (h : m + 63 < 2 ^ 64) (hb : b < m) :
    b / 64 < wordCount m := by
  rw [wordCount_eq m h]
  omega

theorem testBitAt_of_getElem? {bit : List Nat} {b w : Nat} (h : bit[b / 64]? = some w) :
    testBitAt bit b = w.testBit (b % 64) := by
  simp [testBitAt, h]

theorem testBitAt_true_iff (bit : List Nat) (b : Nat) :
    testBitAt bit b = true ↔ ∃ w, bit[b / 64]? = some w ∧ w.testBit (b % 64) = true := by
  unfold testBitAt
  cases h : bit[b / 64]? with
  | none => simp
  | some w => simp

theorem testBit_probeMask (h1 h2 m n i j t : Nat) :
    (probeMask h1 h2 m n i j).testBit t = true ↔
      ∃ c, i ≤ c ∧ c < i + n ∧ probe h1 h2 m c / 64 = j ∧ probe h1 h2 m c % 64 = t := by
  induction n generalizing i with
  | zero =>
    simp only [probeMask, Nat.zero_testBit, Nat.add_zero]
    constructor
    · intro h
      cases h
    · rintro ⟨c, hc1, hc2, _, _⟩
      omega
  | succ n ih =>
    rw [probeMask, Nat.testBit_or, Bool.or_eq_true, ih]
    constructor
    · rintro (h | ⟨c, hc1, hc2, hc3, hc4⟩)
      · by_cases hj : probe h1 h2 m i / 64 = j
        · rw [if_pos hj, testBit_bitMask] at h
          exact ⟨i, Nat.le_refl _, by omega, hj, by simpa using h⟩
        · rw [if_neg hj] at h
          simp at h
      · exact ⟨c, by omega, by omega, hc3, hc4⟩
    · rintro ⟨c, hc1, hc2, hc3, hc4⟩
      by_cases hci : c = i
      · subst hci
        left
        rw [if_pos hc3, testBit_bitMask]
        simpa using hc4
      · right
        exact ⟨c, by omega, by omega, hc3, hc4⟩

theorem probeMask_lt (h1 h2 m n i j : Nat) : probeMask h1 h2 m n i j < 2 ^ 64 := by
  induction n generalizing i with
  | zero => simp [probeMask]
  | succ n ih =>
    rw [probeMask]
    apply Nat.or_lt_two_pow _ (ih _)
    split
    · exact bitMask_lt _
    · exact Nat.pow_pos (by decide)

/-! ## The loop of `Add` -/

theorem addLoop_spec (h1 h2 m : Nat) (n i : Nat) (bit r : List Nat)
    (h : addLoop h1 h2 m n i bit = some r) :
    r.length = bit.length ∧
      (∀ j, r[j]? = (bit[j]?).map (fun w => w ||| probeMask h1 h2 m n i j)) ∧
      (n ≠ 0 → m ≠ 0) ∧
      ∀ c, i ≤ c → c < i + n → probe h1 h2 m c / 64 < bit.length := by
  induction n generalizing i bit with
  | zero =>
    simp only [addLoop, Option.some.injEq] at h
    subst h
    refine ⟨rfl, ?_, fun h0 => absurd rfl h0, fun c hc1 hc2 => by omega⟩
    intro j
    cases bit[j]? <;> simp [probeMask]
  | succ n ih =>
    by_cases hm : m = 0
    · subst hm
      simp [addLoop, getIndices_zero] at h
    · rw [addLoop, getIndices_eq h1 h2 i m hm] at h
      simp only at h
      cases hw : bit[probe h1 h2 m i / 64]? with
      | none => simp [hw] at h
      | some w =>
        rw [hw] at h
        simp only at h
        obtain ⟨hlen, hget, _, hrange⟩ := ih (i + 1) _ h
        have hin : probe h1 h2 m i / 64 < bit.length := by
          rcases List.getElem?_eq_some.mp hw with ⟨hlt, _⟩
          exact hlt
        rw [List.length_set] at hlen hrange
        refine ⟨hlen, ?_, fun _ => hm, ?_⟩
        · intro j
          rw [hget j, List.getElem?_set, probeMask]
          by_cases hj : probe h1 h2 m i / 64 = j
          · subst hj
            simp [hin, hw, Nat.or_assoc]
          · simp [hj]
        · intro c hc1 hc2
          by_cases hci : c = i
          · subst hci
            exact hin
          · exact hrange c (by omega) (by omega)

theorem addLoop_isSome (h1 h2 m : Nat) (hm : m ≠ 0) (n i : Nat) (bit : List Nat)
    (hr : ∀ c, i ≤ c → c < i + n → probe h1 h2 m c / 64 < bit.length) :
    ∃ r, addLoop h1 h2 m n i bit = some r := by
  induction n generalizing i bit with
  | zero => exact ⟨bit, rfl⟩
  | succ n ih =>
    have hin : probe h1 h2 m i / 64 < bit.length := hr i (Nat.le_refl _) (by omega)
    rw [addLoop, getIndices_eq h1 h2 i m hm]
    simp only [List.getElem?_eq_getElem hin]
    apply ih
    intro c hc1 hc2
    rw [List.length_set]
    exact hr c (by omega) (by omega)

theorem addLoop_zero_iters (h1 h2 m i : Nat) (bit : List Nat) :
    addLoop h1 h2 m 0 i bit = some bit := rfl

/-! ## The loop of `Contains` -/

theorem containsLoop_true_iff (h1 h2 m : Nat) (bit : List Nat) (n i : Nat) :
    containsLoop h1 h2 m bit n i = some true ↔
      ∀ c, i ≤ c → c < i + n →
        ∃ b, getIndices h1 h2 c m = some b ∧ testBitAt bit b = true := by
  induction n generalizing i with
  | zero =>
    simp only [containsLoop, Nat.add_zero, true_iff]
    intro c hc1 hc2
    omega
  | succ n ih =>
    rw [containsLoop]
    cases hg : getIndices h1 h2 i m with
    | none =>
      refine ⟨fun h => (by cases h), fun hall => False.elim ?_⟩
      obtain ⟨b, hb, _⟩ := hall i (Nat.le_refl _) (by omega)
      rw [hg] at hb
      cases hb
    | some b =>
      simp only
      cases hw : bit[b / 64]? with
      | none =>
        refine ⟨fun h => (by cases h), fun hall => False.elim ?_⟩
        obtain ⟨b1, hb1, ht⟩ := hall i (Nat.le_refl _) (by omega)
        rw [hg] at hb1
        cases hb1
        simp [testBitAt, hw] at ht
      | some w =>
        simp only
        by_cases hz : bitMask b &&& w = 0
        · rw [if_pos hz]
          refine ⟨fun h => (by cases h), fun hall => False.elim ?_⟩
          obtain ⟨b1, hb1, ht⟩ := hall i (Nat.le_refl _) (by omega)
          rw [hg] at hb1
          cases hb1
          rw [testBitAt_of_getElem? hw, (bitMask_land_eq_zero b w).mp hz] at ht
          cases ht
        · rw [if_neg hz, ih]
          have hbit : testBitAt bit b = true := by
            rw [testBitAt_of_getElem? hw]
            cases hb : w.testBit (b % 64) with
            | true => rfl
            | false => exact absurd ((bitMask_land_eq_zero b w).mpr hb) hz
          constructor
          · intro hall c hc1 hc2
            by_cases hci : c = i
            · subst hci
              exact ⟨b, hg, hbit⟩
            · exact hall c (by omega) (by omega)
          · intro hall c hc1 hc2
            exact hall c (by omega) (by omega)

theorem containsLoop_isSome (h1 h2 m : Nat) (hm : m ≠ 0) (bit : List Nat) (n i : Nat)
    (hr : ∀ c, i ≤ c → c < i + n → probe h1 h2 m c / 64 < bit.length) :
    ∃ v, containsLoop h1 h2 m bit n i = some v := by
  induction n generalizing i with
  | zero => exact ⟨true, rfl⟩
  | succ n ih =>
    have hin : probe h1 h2 m i / 64 < bit.length := hr i (Nat.le_refl _) (by omega)
    rw [containsLoop, getIndices_eq h1 h2 i m hm]
    simp only [List.getElem?_eq_getElem hin]
    split
    · exact ⟨false, rfl⟩
    · exact ih (i + 1) (fun c hc1 hc2 => hr c (by omega) (by omega))

/-! ## The loops of `Union`, `Intersection` and `Subset` -/

theorem combineLoop_spec (op : Nat → Nat → Nat) (bit2 : List Nat) (n i : Nat) (bit1 : List Nat)
    (h1 : i + n ≤ bit1.length) (h2 : i + n ≤ bit2.length) :
    ∃ r, combineLoop op bit2 n i bit1 = some r ∧ r.length = bit1.length ∧
      ∀ j, r[j]? = if i ≤ j ∧ j < i + n then
          (bit1[j]?).bind (fun a => (bit2[j]?).map (fun b => op a b))
        else bit1[j]? := by
  induction n generalizing i bit1 with
  | zero =>
    refine ⟨bit1, rfl, rfl, ?_⟩
    intro j
    have : ¬ (i ≤ j ∧ j < i + 0) := by omega
    rw [if_neg this]
  | succ n ih =>
    have hi1 : i < bit1.length := by omega
    have hi2 : i < bit2.length := by omega
    rw [combineLoop]
    simp only [List.getElem?_eq_getElem hi1, List.getElem?_eq_getElem hi2]
    obtain ⟨r, hr, hlen, hget⟩ := ih (i + 1) (bit1.set i (op bit1[i] bit2[i]))
      (by rw [List.length_set]; omega) (by omega)
    rw [List.length_set] at hlen
    refine ⟨r, hr, hlen, ?_⟩
    intro j
    rw [hget j, List.getElem?_set]
    by_cases hij : i = j
    · subst hij
      have c1 : ¬ (i + 1 ≤ i ∧ i < i + 1 + n) := by omega
      have c2 : i ≤ i ∧ i < i + (n + 1) := by omega
      rw [if_neg c1, if_pos c2, if_pos rfl, if_pos hi1]
      simp [List.getElem?_eq_getElem hi1, List.getElem?_eq_getElem hi2]
    · rw [if_neg hij]
      by_cases hc : i + 1 ≤ j ∧ j < i + 1 + n
      · have c2 : i ≤ j ∧ j < i + (n + 1) := by omega
        rw [if_pos hc, if_pos c2]
      · have c2 : ¬ (i ≤ j ∧ j < i + (n + 1)) := by omega
        rw [if_neg hc, if_neg c2]

theorem combineLoop_eq_zipWith (op : Nat → Nat → Nat) (bit1 bit2 : List Nat)
    (h : bit1.length ≤ bit2.length) :
    combineLoop op bit2 bit1.length 0 bit1 = some (List.zipWith op bit1 bit2) := by
  obtain ⟨r, hr, _, hget⟩ := combineLoop_spec op bit2 bit1.length 0 bit1 (by omega) (by omega)
  rw [hr]
  congr 1
  apply List.ext_getElem?
  intro j
  rw [hget j, List.getElem?_zipWith]
  by_cases hj : j < bit1.length
  · have hj2 : j < bit2.length := by omega
    have c : 0 ≤ j ∧ j < 0 + bit1.length := by omega
    rw [if_pos c]
    simp [List.getElem?_eq_getElem hj, List.getElem?_eq_getElem hj2]
  · have c : ¬ (0 ≤ j ∧ j < 0 + bit1.length) := by omega
    rw [if_neg c]
    simp [List.getElem?_eq_none (Nat.le_of_not_lt hj)]

theorem combineLoop_short (op : Nat → Nat → Nat) (bit2 : List Nat) (n i : Nat) (bit1 : List Nat)
    (h1 : i + n ≤ bit1.length) (h2 : bit2.length < i + n) (h3 : i ≤ bit2.length) :
    combineLoop op bit2 n i bit1 = none := by
  induction n generalizing i bit1 with
  | zero => omega
  | succ n ih =>
    have hi1 : i < bit1.length := by omega
    rw [combineLoop]
    simp only [List.getElem?_eq_getElem hi1]
    by_cases hi2 : i < bit2.length
    · simp only [List.getElem?_eq_getElem hi2]
      exact ih (i + 1) _ (by rw [List.length_set]; omega) (by omega) (by omega)
    · simp only [List.getElem?_eq_none (Nat.le_of_not_lt hi2)]

theorem subsetLoop_spec (bit1 bit2 : List Nat) (n i : Nat)
    (h1 : i + n ≤ bit1.length) (h2 : i + n ≤ bit2.length) :
    ∃ v, subsetLoop bit1 bit2 n i = some v ∧
      (v = true ↔ ∀ c a b, i ≤ c → c < i + n → bit1[c]? = some a → bit2[c]? = some b →
        a &&& b = b) := by
  induction n generalizing i with
  | zero =>
    refine ⟨true, rfl, ?_⟩
    simp only [true_iff]
    intro c a b hc1 hc2
    omega
  | succ n ih =>
    have hi1 : i < bit1.length := by omega
    have hi2 : i < bit2.length := by omega
    rw [subsetLoop]
    simp only [List.getElem?_eq_getElem hi1, List.getElem?_eq_getElem hi2]
    by_cases hw : bit1[i] &&& bit2[i] = bit2[i]
    · have hw1 : ¬ (bit1[i] &&& bit2[i] ≠ bit2[i]) := fun hne => hne hw
      rw [if_neg hw1]
      obtain ⟨v, hv, hiff⟩ := ih (i + 1) (by omega) (by omega)
      refine ⟨v, hv, ?_⟩
      rw [hiff]
      constructor
      · intro hall c a b hc1 hc2 ha hb
        by_cases hci : c = i
        · subst hci
          rw [List.getElem?_eq_getElem hi1] at ha
          rw [List.getElem?_eq_getElem hi2] at hb
          cases ha
          cases hb
          exact hw
        · exact hall c a b (by omega) (by omega) ha hb
      · intro hall c a b hc1 hc2 ha hb
        exact hall c a b (by omega) (by omega) ha hb
    · rw [if_pos hw]
      refine ⟨false, rfl, ?_⟩
      refine ⟨fun h => (by cases h), fun hall => False.elim ?_⟩
      exact hw (hall i _ _ (Nat.le_refl _) (by omega) (List.getElem?_eq_getElem hi1)
        (List.getElem?_eq_getElem hi2))

theorem land_eq_right_iff (a b : Nat) :
    a &&& b = b ↔ ∀ t, b.testBit t = true → a.testBit t = true := by
  constructor
  · intro h t hb
    have h1 := congrArg (fun x => x.testBit t) h
    simp only [Nat.testBit_and, hb, Bool.and_true] at h1
    exact h1
  · intro h
    apply Nat.eq_of_testBit_eq
    intro t
    rw [Nat.testBit_and]
    cases hb : b.testBit t with
    | false => simp
    | true => simp [h t hb]

/-! ## Well-formedness is kept by every operation -/

theorem wellFormed_New (m k : Nat) : WellFormed (New m k) := by
  refine ⟨by simp [New], ?_⟩
  intro w hw
  simp only [New, List.mem_replicate] at hw
  rw [hw.2]
  exact Nat.pow_pos (by decide)

theorem wellFormed_Clear (bf : BloomFilter) : WellFormed (Clear bf) := by
  refine ⟨by simp [Clear], ?_⟩
  intro w hw
  simp only [Clear, List.mem_replicate] at hw
  rw [hw.2]
  exact Nat.pow_pos (by decide)

theorem Add_fields (Sum64 : Bytes → Nat) (bf bf1 : BloomFilter) (d : Bytes)
    (h : Add Sum64 bf d = some bf1) :
    bf1.m = bf.m ∧ bf1.k = bf.k ∧
      addLoop (computeHashes Sum64 d).1 (computeHashes Sum64 d).2 bf.m bf.k 0 bf.bit
        = some bf1.bit := by
  unfold Add at h
  simp only [Option.map_eq_some'] at h
  obtain ⟨r, hr, hbf⟩ := h
  subst hbf
  exact ⟨rfl, rfl, hr⟩

theorem wellFormed_Add (Sum64 : Bytes → Nat) (bf bf1 : BloomFilter) (d : Bytes)
    (hwf : WellFormed bf) (h : Add Sum64 bf d = some bf1) : WellFormed bf1 := by
  obtain ⟨hm, _, hloop⟩ := Add_fields Sum64 bf bf1 d h
  obtain ⟨hlen, hget, _, _⟩ := addLoop_spec _ _ _ _ _ _ _ hloop
  refine ⟨by rw [hlen, hm, hwf.1], ?_⟩
  intro w hw
  obtain ⟨j, hj⟩ := List.mem_iff_getElem?.mp hw
  rw [hget j] at hj
  cases hb : bf.bit[j]? with
  | none => simp [hb] at hj
  | some a =>
    simp only [hb, Option.map_some', Option.some.injEq] at hj
    rw [← hj]
    exact Nat.or_lt_two_pow (hwf.2 a (List.getElem?_mem hb)) (probeMask_lt _ _ _ _ _ _)

theorem Add_isSome (Sum64 : Bytes → Nat) (bf : BloomFilter) (d : Bytes)
    (hm : 1 ≤ bf.m) (hm2 : bf.m + 63 < 2 ^ 64) (hlen : bf.bit.length = wordCount bf.m) :
    ∃ bf1, Add Sum64 bf d = some bf1 := by
  have hm0 : bf.m ≠ 0 := by omega
  obtain ⟨r, hr⟩ := addLoop_isSome (computeHashes Sum64 d).1 (computeHashes Sum64 d).2 bf.m hm0
    bf.k 0 bf.bit (by
      intro c _ _
      rw [hlen]
      exact div_lt_wordCount _ _ hm2 (probe_lt _ _ _ _ hm0))
  exact ⟨{ bf with bit := r }, by simp [Add, hr]⟩

/-! ## Bits after `Add` -/

theorem testBitAt_addLoop (h1 h2 m n i : Nat) (bit r : List Nat)
    (h : addLoop h1 h2 m n i bit = some r) (b : Nat) :
    testBitAt r b = true ↔
      testBitAt bit b = true ∨ ∃ c, i ≤ c ∧ c < i + n ∧ probe h1 h2 m c = b := by
  obtain ⟨_, hget, _, hrange⟩ := addLoop_spec h1 h2 m n i bit r h
  have hr := hget (b / 64)
  cases hb : bit[b / 64]? with
  | none =>
    rw [hb] at hr
    simp only [Option.map_none'] at hr
    have hlen : bit.length ≤ b / 64 := List.getElem?_eq_none_iff.mp hb
    constructor
    · intro ht
      simp [testBitAt, hr] at ht
    · rintro (ht | ⟨c, hc1, hc2, hc3⟩)
      · simp [testBitAt, hb] at ht
      · have := hrange c hc1 hc2
        rw [hc3] at this
        omega
  | some w =>
    rw [hb] at hr
    simp only [Option.map_some'] at hr
    rw [testBitAt_of_getElem? hr, testBitAt_of_getElem? hb, Nat.testBit_or, Bool.or_eq_true,
      testBit_probeMask]
    constructor
    · rintro (ht | ⟨c, hc1, hc2, hc3, hc4⟩)
      · exact Or.inl ht
      · exact Or.inr ⟨c, hc1, hc2, by omega⟩
    · rintro (ht | ⟨c, hc1, hc2, hc3⟩)
      · exact Or.inl ht
      · exact Or.inr ⟨c, hc1, hc2, by rw [hc3], by rw [hc3]⟩

theorem Contains_true_iff (Sum64 : Bytes → Nat) (bf : BloomFilter) (d : Bytes) :
    Contains Sum64 bf d = some true ↔
      ∀ c, c < bf.k → ∃ b, getIndices (computeHashes Sum64 d).1 (computeHashes Sum64 d).2 c bf.m
        = some b ∧ testBitAt bf.bit b = true := by
  unfold Contains
  simp only
  rw [containsLoop_true_iff]
  constructor
  · intro h c hc
    exact h c (Nat.zero_le _) (by omega)
  · intro h c _ hc
    exact h c (by omega)

theorem addAll_spec (Sum64 : Bytes → Nat) (ds : List Bytes) (bf0 : BloomFilter)
    (hm : 1 ≤ bf0.m) (hm2 : bf0.m + 63 < 2 ^ 64) (hlen : bf0.bit.length = wordCount bf0.m) :
    ∃ bf, addAll Sum64 bf0 ds = some bf ∧ bf.m = bf0.m ∧ bf.k = bf0.k ∧
      bf.bit.length = bf0.bit.length ∧
      (∀ b, testBitAt bf0.bit b = true → testBitAt bf.bit b = true) ∧
      ∀ d, d ∈ ds → ∀ c, c < bf0.k →
        testBitAt bf.bit
          (probe (computeHashes Sum64 d).1 (computeHashes Sum64 d).2 bf0.m c) = true := by
  induction ds generalizing bf0 with
  | nil =>
    refine ⟨bf0, rfl, rfl, rfl, rfl, fun b hb => hb, ?_⟩
    intro d hd
    cases hd
  | cons e es ih =>
    obtain ⟨bf1, hadd⟩ := Add_isSome Sum64 bf0 e hm hm2 hlen
    obtain ⟨hm1, hk1, hloop⟩ := Add_fields Sum64 bf0 bf1 e hadd
    obtain ⟨hlen1, _, _, _⟩ := addLoop_spec _ _ _ _ _ _ _ hloop
    obtain ⟨bf, hall, hmm, hkk, hll, hmono, hprobes⟩ := ih bf1 (by rw [hm1]; exact hm)
      (by rw [hm1]; exact hm2) (by rw [hlen1, hm1]; exact hlen)
    refine ⟨bf, ?_, by rw [hmm, hm1], by rw [hkk, hk1], by rw [hll, hlen1], ?_, ?_⟩
    · simp [addAll, hadd, hall]
    · intro b hb
      exact hmono b ((testBitAt_addLoop _ _ _ _ _ _ _ hloop b).mpr (Or.inl hb))
    · intro d hd c hc
      rcases List.mem_cons.mp hd with hde | hdes
      · subst hde
        apply hmono
        exact (testBitAt_addLoop _ _ _ _ _ _ _ hloop _).mpr
          (Or.inr ⟨c, Nat.zero_le _, by omega, rfl⟩)
      · have := hprobes d hdes c (by rw [hk1]; exact hc)
        rw [hm1] at this
        exact this

/-- No false negatives, on the sizes whose length expression does not wrap:
for `1 ≤ m ≤ 2^64 - 64` every sequence of `Add` calls on `New m k` returns,
and `Contains` answers `true` for each added element. -/
theorem no_false_negatives (Sum64 : Bytes → Nat) (m k : Nat) (hm : 1 ≤ m)
    (hm2 : m + 63 < 2 ^ 64) (ds : List Bytes) (d : Bytes) (hd : d ∈ ds) :
    ∃ bf, addAll Sum64 (New m k) ds = some bf ∧ Contains Sum64 bf d = some true := by
  obtain ⟨bf, hall, hmm, hkk, _, _, hprobes⟩ := addAll_spec Sum64 ds (New m k) hm hm2
    (by simp [New])
  refine ⟨bf, hall, ?_⟩
  rw [Contains_true_iff]
  intro c hc
  have hm0 : bf.m ≠ 0 := by rw [hmm]; simp only [New]; omega
  refine ⟨_, getIndices_eq _ _ _ _ hm0, ?_⟩
  rw [hmm]
  exact hprobes d hd c (by rw [← hkk]; exact hc)

/-- C1: no false negatives is broken where the length expression of `New`
wraps. For `m = 2^64 - 1` and `k = 1` the slice made by `New` has no word, so
for every base hash and every byte sequence the first `Add` panics on its index
and so does `Contains` on the fresh filter: no call returns `true`. -/
theorem C1_add_panics_on_wrapped_length :
    (New (2 ^ 64 - 1) 1).bit = [] ∧
      ∀ (Sum64 : Bytes → Nat) (d : Bytes),
        addAll Sum64 (New (2 ^ 64 - 1) 1) [d] = none ∧
        Contains Sum64 (New (2 ^ 64 - 1) 1) d = none := by
  have hbit : (New (2 ^ 64 - 1) 1).bit = [] := by decide
  refine ⟨hbit, ?_⟩
  intro Sum64 d
  have hm0 : (New (2 ^ 64 - 1) 1).m ≠ 0 := by decide
  have hk : (New (2 ^ 64 - 1) 1).k = 1 := rfl
  constructor
  · simp only [addAll, Add, hk, addLoop, getIndices_eq _ _ _ _ hm0, hbit]
    simp
  · simp only [Contains, hk, containsLoop, getIndices_eq _ _ _ _ hm0, hbit]
    simp

/-! ## `Union`, `Intersection` and `Subset` on filters of equal length -/

theorem mismatchError_eq_none (bf1 bf2 : BloomFilter) (hm : bf1.m = bf2.m) (hk : bf1.k = bf2.k) :
    mismatchError bf1 bf2 = none := by
  simp [mismatchError, hm, hk]

theorem Union_eq (bf1 bf2 : BloomFilter) (h : bf1.bit.length ≤ bf2.bit.length) :
    Union bf1 bf2 = some ({ bf1 with bit := List.zipWith (fun a b => a ||| b) bf1.bit bf2.bit },
      mismatchError bf1 bf2) := by
  simp [Union, combineLoop_eq_zipWith _ _ _ h]

theorem Intersection_eq (bf1 bf2 : BloomFilter) (h : bf1.bit.length ≤ bf2.bit.length) :
    Intersection bf1 bf2 =
      some ({ bf1 with bit := List.zipWith (fun a b => a &&& b) bf1.bit bf2.bit },
        mismatchError bf1 bf2) := by
  simp [Intersection, combineLoop_eq_zipWith _ _ _ h]

theorem testBitAt_zipWith_or (l1 l2 : List Nat) (h : l1.length = l2.length) (b : Nat) :
    testBitAt (List.zipWith (fun a b => a ||| b) l1 l2) b = (testBitAt l1 b || testBitAt l2 b) := by
  unfold testBitAt
  rw [List.getElem?_zipWith]
  by_cases hj : b / 64 < l1.length
  · have hj2 : b / 64 < l2.length := by omega
    simp [List.getElem?_eq_getElem hj, List.getElem?_eq_getElem hj2]
  · have hj2 : ¬ b / 64 < l2.length := by omega
    simp [List.getElem?_eq_none (Nat.le_of_not_lt hj), List.getElem?_eq_none (Nat.le_of_not_lt hj2)]

theorem testBitAt_zipWith_and (l1 l2 : List Nat) (b : Nat) :
    testBitAt (List.zipWith (fun a b => a &&& b) l1 l2) b = (testBitAt l1 b && testBitAt l2 b) := by
  unfold testBitAt
  rw [List.getElem?_zipWith]
  cases h1 : l1[b / 64]? with
  | none => simp
  | some a =>
    cases h2 : l2[b / 64]? with
    | none => simp
    | some c => simp

theorem wellFormed_length_eq (bf1 bf2 : BloomFilter) (hm : bf1.m = bf2.m)
    (h1 : WellFormed bf1) (h2 : WellFormed bf2) : bf1.bit.length = bf2.bit.length := by
  rw [h1.1, h2.1, hm]

/-- C2: union keeps every member. For well-formed filters `A` and `B` with the
same `m` and the same `k`, `A.Union(B)` returns without error, and every byte
sequence for which `Contains` answered `true` on `A` before the call or answers
`true` on `B` gets the answer `true` from the new `A`. -/
theorem C2_union_keeps_members (Sum64 : Bytes → Nat) (A B : BloomFilter) (d : Bytes)
    (hm : A.m = B.m) (hk : A.k = B.k) (hA : WellFormed A) (hB : WellFormed B)
    (h : Contains Sum64 A d = some true ∨ Contains Sum64 B d = some true) :
    ∃ A1, Union A B = some (A1, none) ∧ Contains Sum64 A1 d = some true := by
  have hlen := wellFormed_length_eq A B hm hA hB
  refine ⟨{ A with bit := List.zipWith (fun a b => a ||| b) A.bit B.bit }, ?_, ?_⟩
  · rw [Union_eq A B (Nat.le_of_eq hlen), mismatchError_eq_none A B hm hk]
  · rw [Contains_true_iff]
    intro c hc
    simp only at hc ⊢
    rcases h with h | h
    · obtain ⟨b, hb, ht⟩ := (Contains_true_iff Sum64 A d).mp h c hc
      refine ⟨b, hb, ?_⟩
      rw [testBitAt_zipWith_or _ _ hlen, ht, Bool.true_or]
    · obtain ⟨b, hb, ht⟩ := (Contains_true_iff Sum64 B d).mp h c (by rw [← hk]; exact hc)
      refine ⟨b, by rw [hm]; exact hb, ?_⟩
      rw [testBitAt_zipWith_or _ _ hlen, ht, Bool.or_true]

/-- Witness of C2: `A` is the fresh `New 64 1`, `B` holds bit 0, which is the
one probe of the empty byte sequence under the base hash that is constantly 0. -/
theorem C2_union_keeps_members_witness :
    (New 64 1).m = (BloomFilter.mk 64 1 [1]).m ∧ (New 64 1).k = (BloomFilter.mk 64 1 [1]).k ∧
      WellFormed (New 64 1) ∧ WellFormed (BloomFilter.mk 64 1 [1]) ∧
      Contains (fun _ => 0) (BloomFilter.mk 64 1 [1]) [] = some true ∧
      ∃ A1, Union (New 64 1) (BloomFilter.mk 64 1 [1]) = some (A1, none) ∧
        Contains (fun _ => 0) A1 [] = some true :=
  ⟨rfl, rfl, by decide, by decide, by decide,
    C2_union_keeps_members (fun _ => 0) (New 64 1) (BloomFilter.mk 64 1 [1]) [] rfl rfl
      (by decide) (by decide) (Or.inr (by decide))⟩

/-- Size mismatch on the sizes where `Union` returns: if the receiver built by
`New` has no more words than the operand, a differing `m` (with equal `k`) is
reported by the size error. -/
theorem Union_size_mismatch_of_le (m1 m2 k : Nat) (hne : m1 ≠ m2)
    (hle : wordCount m1 ≤ wordCount m2) :
    Union (New m1 k) (New m2 k) = some (New m1 k, some errMismatchedSizes) := by
  rw [Union_eq _ _ (by simpa [New] using hle)]
  have herr : mismatchError (New m1 k) (New m2 k) = some errMismatchedSizes := by
    simp [mismatchError, New, hne]
  rw [herr]
  have hbits : List.zipWith (fun a b => a ||| b) (New m1 k).bit (New m2 k).bit
      = (New m1 k).bit := by
    apply List.ext_getElem?
    intro j
    rw [List.getElem?_zipWith]
    simp only [New, List.getElem?_replicate]
    by_cases hj : j < wordCount m1
    · have hj2 : j < wordCount m2 := by omega
      simp [hj, hj2]
    · simp [hj]
  rw [hbits]

/-- When the receiver built by `New` has more words than the operand, the loop
of `Union` indexes the operand out of range and the call panics. -/
theorem Union_panics_of_lt (m1 m2 k1 k2 : Nat) (hlt : wordCount m2 < wordCount m1) :
    Union (New m1 k1) (New m2 k2) = none := by
  have h := combineLoop_short (fun a b => a ||| b) (New m2 k2).bit (New m1 k1).bit.length 0
    (New m1 k1).bit (by omega) (by simpa [New] using hlt) (Nat.zero_le _)
  simp [Union, h]

/-- C3: size-mismatch detection is broken when the receiver is the longer
filter. `New(200,3).Union(New(100,3))` has differing `m` and equal `k`, yet the
call panics in its loop (the receiver has 4 words, the operand 2) and returns
no error at all; the example of the claim, with the shorter receiver, does
return the size error. -/
theorem C3_union_size_mismatch_panics :
    Union (New 200 3) (New 100 3) = none ∧
      Union (New 100 3) (New 200 3) = some (New 100 3, some errMismatchedSizes) :=
  ⟨Union_panics_of_lt 200 100 3 3 (by decide),
    Union_size_mismatch_of_le 100 200 3 (by decide) (by decide)⟩

/-- C4: hash-count mismatch detection. For well-formed filters with equal `m`,
`Union` returns; the returned error is non-nil exactly when the `k` values
differ, it is then the hash-count error, and it is nil when `k` matches too. -/
theorem C4_union_hash_count_mismatch (A B : BloomFilter) (hm : A.m = B.m)
    (hA : WellFormed A) (hB : WellFormed B) :
    ∃ A1 err, Union A B = some (A1, err) ∧
      (err ≠ none ↔ A.k ≠ B.k) ∧
      (A.k ≠ B.k → err = some errMismatchedHashCounts) ∧
      (A.k = B.k → err = none) := by
  have hlen := wellFormed_length_eq A B hm hA hB
  refine ⟨_, _, Union_eq A B (Nat.le_of_eq hlen), ?_, ?_, ?_⟩
  · by_cases hk : A.k = B.k <;> simp [mismatchError, hm, hk]
  · intro hk
    simp [mismatchError, hm, hk]
  · intro hk
    simp [mismatchError, hm, hk]

/-- Witness of C4: the example `New(100,3).Union(New(100,5))`. -/
theorem C4_union_hash_count_mismatch_witness :
    (New 100 3).m = (New 100 5).m ∧ WellFormed (New 100 3) ∧ WellFormed (New 100 5) ∧
      ∃ A1 err, Union (New 100 3) (New 100 5) = some (A1, err) ∧
        (err ≠ none ↔ (New 100 3).k ≠ (New 100 5).k) ∧
        ((New 100 3).k ≠ (New 100 5).k → err = some errMismatchedHashCounts) ∧
        ((New 100 3).k = (New 100 5).k → err = none) :=
  ⟨rfl, wellFormed_New 100 3, wellFormed_New 100 5,
    C4_union_hash_count_mismatch (New 100 3) (New 100 5) rfl (wellFormed_New 100 3)
      (wellFormed_New 100 5)⟩

/-! ## Invariants of the reachable filters -/

theorem testBitAt_replicate_zero (n b : Nat) : testBitAt (List.replicate n 0) b = false := by
  unfold testBitAt
  rw [List.getElem?_replicate]
  by_cases h : b / 64 < n
  · simp [h]
  · simp [h]

theorem wellFormed_zipWith (op : Nat → Nat → Nat) (bf1 bf2 : BloomFilter)
    (hop : ∀ a b, a < 2 ^ 64 → b < 2 ^ 64 → op a b < 2 ^ 64)
    (hlen : bf1.bit.length ≤ bf2.bit.length) (h1 : WellFormed bf1) (h2 : WellFormed bf2) :
    WellFormed { bf1 with bit := List.zipWith op bf1.bit bf2.bit } := by
  refine ⟨?_, ?_⟩
  · simp only [List.length_zipWith]
    rw [Nat.min_eq_left hlen]
    exact h1.1
  · intro w hw
    simp only at hw
    obtain ⟨j, hj⟩ := List.mem_iff_getElem?.mp hw
    rw [List.getElem?_zipWith] at hj
    cases ha : bf1.bit[j]? with
    | none => simp [ha] at hj
    | some a =>
      cases hb : bf2.bit[j]? with
      | none => simp [ha, hb] at hj
      | some b =>
        simp only [ha, hb, Option.some.injEq] at hj
        rw [← hj]
        exact hop a b (h1.2 a (List.getElem?_mem ha)) (h2.2 b (List.getElem?_mem hb))

theorem combineLoop_some_length (op : Nat → Nat → Nat) (bit1 bit2 r : List Nat)
    (h : combineLoop op bit2 bit1.length 0 bit1 = some r) : bit1.length ≤ bit2.length := by
  apply Nat.le_of_not_lt
  intro hlt
  rw [combineLoop_short op bit2 bit1.length 0 bit1 (by omega) (by omega) (Nat.zero_le _)] at h
  cases h

/-- Whenever `Union` returns, the receiver it leaves is well-formed again. -/
theorem wellFormed_Union (bf1 bf2 bf3 : BloomFilter) (err : Option String)
    (h1 : WellFormed bf1) (h2 : WellFormed bf2) (h : Union bf1 bf2 = some (bf3, err)) :
    WellFormed bf3 := by
  have hlen : bf1.bit.length ≤ bf2.bit.length := by
    unfold Union at h
    simp only [Option.map_eq_some'] at h
    obtain ⟨r, hr, _⟩ := h
    exact combineLoop_some_length _ _ _ r hr
  rw [Union_eq bf1 bf2 hlen] at h
  simp only [Option.some.injEq, Prod.mk.injEq] at h
  rw [← h.1]
  exact wellFormed_zipWith _ bf1 bf2 (fun a b ha hb => Nat.or_lt_two_pow ha hb) hlen h1 h2

/-- Whenever `Intersection` returns, the receiver it leaves is well-formed again. -/
theorem wellFormed_Intersection (bf1 bf2 bf3 : BloomFilter) (err : Option String)
    (h1 : WellFormed bf1) (h2 : WellFormed bf2) (h : Intersection bf1 bf2 = some (bf3, err)) :
    WellFormed bf3 := by
  have hlen : bf1.bit.length ≤ bf2.bit.length := by
    unfold Intersection at h
    simp only [Option.map_eq_some'] at h
    obtain ⟨r, hr, _⟩ := h
    exact combineLoop_some_length _ _ _ r hr
  rw [Intersection_eq bf1 bf2 hlen] at h
  simp only [Option.some.injEq, Prod.mk.injEq] at h
  rw [← h.1]
  exact wellFormed_zipWith _ bf1 bf2 (fun a b _ hb => Nat.and_lt_two_pow a hb) hlen h1 h2

theorem reachable_inv (Sum64 : Bytes → Nat) (m k : Nat) (bf : BloomFilter)
    (h : Reachable Sum64 m k bf) :
    WellFormed bf ∧ bf.m = m ∧ bf.k = k ∧ ∀ b, m ≤ b → testBitAt bf.bit b = false := by
  induction h with
  | new => exact ⟨wellFormed_New m k, rfl, rfl, fun b _ => testBitAt_replicate_zero _ _⟩
  | @add bf bf1 d _ hadd ih =>
    obtain ⟨hwf, hm, hk, hhigh⟩ := ih
    obtain ⟨hm1, hk1, hloop⟩ := Add_fields Sum64 bf bf1 d hadd
    refine ⟨wellFormed_Add Sum64 bf bf1 d hwf hadd, by rw [hm1, hm], by rw [hk1, hk], ?_⟩
    intro b hb
    cases ht : testBitAt bf1.bit b with
    | false => rfl
    | true =>
      rcases (testBitAt_addLoop _ _ _ _ _ _ _ hloop b).mp ht with h0 | ⟨c, _, hc2, hc3⟩
      · rw [hhigh b hb] at h0
        cases h0
      · obtain ⟨_, _, hm0, _⟩ := addLoop_spec _ _ _ _ _ _ _ hloop
        have hlt := probe_lt (computeHashes Sum64 d).1 (computeHashes Sum64 d).2 bf.m c
          (hm0 (by omega))
        rw [hc3, hm] at hlt
        omega
  | @clear bf _ ih =>
    obtain ⟨_, hm, hk, _⟩ := ih
    exact ⟨wellFormed_Clear bf, hm, hk, fun b _ => testBitAt_replicate_zero _ _⟩
  | @union bf1 bf2 bf3 err _ _ hu ih1 ih2 =>
    obtain ⟨hwf1, hm1, hk1, hhigh1⟩ := ih1
    obtain ⟨hwf2, hm2, _, hhigh2⟩ := ih2
    have hmm : bf1.m = bf2.m := by rw [hm1, hm2]
    have hlen := wellFormed_length_eq bf1 bf2 hmm hwf1 hwf2
    rw [Union_eq bf1 bf2 (Nat.le_of_eq hlen)] at hu
    simp only [Option.some.injEq, Prod.mk.injEq] at hu
    obtain ⟨hbf3, _⟩ := hu
    subst hbf3
    refine ⟨wellFormed_zipWith _ bf1 bf2 (fun a b ha hb => Nat.or_lt_two_pow ha hb)
        (Nat.le_of_eq hlen) hwf1 hwf2,
      hm1, hk1, ?_⟩
    intro b hb
    simp only
    rw [testBitAt_zipWith_or _ _ hlen, hhigh1 b hb, hhigh2 b hb]
    rfl
  | @intersection bf1 bf2 bf3 err _ _ hu ih1 ih2 =>
    obtain ⟨hwf1, hm1, hk1, hhigh1⟩ := ih1
    obtain ⟨hwf2, hm2, _, hhigh2⟩ := ih2
    have hmm : bf1.m = bf2.m := by rw [hm1, hm2]
    have hlen := wellFormed_length_eq bf1 bf2 hmm hwf1 hwf2
    rw [Intersection_eq bf1 bf2 (Nat.le_of_eq hlen)] at hu
    simp only [Option.some.injEq, Prod.mk.injEq] at hu
    obtain ⟨hbf3, _⟩ := hu
    subst hbf3
    refine ⟨wellFormed_zipWith _ bf1 bf2 (fun a b _ hb => Nat.and_lt_two_pow a hb)
        (Nat.le_of_eq hlen) hwf1 hwf2,
      hm1, hk1, ?_⟩
    intro b hb
    simp only
    rw [testBitAt_zipWith_and, hhigh1 b hb, hhigh2 b hb]
    rfl

/-! ## Idempotence of `Add` -/

theorem addLoop_idem (h1 h2 m n i : Nat) (bit r : List Nat)
    (h : addLoop h1 h2 m n i bit = some r) : addLoop h1 h2 m n i r = some r := by
  obtain ⟨hlen, hget, hm0, hrange⟩ := addLoop_spec h1 h2 m n i bit r h
  by_cases hn : n = 0
  · subst hn
    rfl
  · obtain ⟨r2, hr2⟩ := addLoop_isSome h1 h2 m (hm0 hn) n i r (by rw [hlen]; exact hrange)
    obtain ⟨_, hget2, _, _⟩ := addLoop_spec h1 h2 m n i r r2 hr2
    rw [hr2]
    congr 1
    apply List.ext_getElem?
    intro j
    rw [hget2 j, hget j]
    cases bit[j]? with
    | none => rfl
    | some w =>
      simp only [Option.map_some']
      rw [Nat.or_assoc, Nat.or_self]

/-- C5: `Add` is idempotent. In every state reachable from `New m k` with
`m ≥ 1`, whenever `Add(d)` returns, a second `Add(d)` returns too and leaves
exactly the filter of the first call (same `m`, same `k`, same words); and
when the length expression does not wrap (`m ≤ 2^64 - 64`), `Add(d)` does
return. -/
theorem C5_add_idempotent (Sum64 : Bytes → Nat) (m k : Nat) (bf : BloomFilter) (d : Bytes)
    (hm : 1 ≤ m) (hr : Reachable Sum64 m k bf) :
    (∀ bf1, Add Sum64 bf d = some bf1 →
        Add Sum64 bf1 d = some bf1 ∧ bf1.m = bf.m ∧ bf1.k = bf.k) ∧
      (m + 63 < 2 ^ 64 → ∃ bf1, Add Sum64 bf d = some bf1) := by
  obtain ⟨hwf, hbm, _, _⟩ := reachable_inv Sum64 m k bf hr
  constructor
  · intro bf1 hadd
    obtain ⟨hm1, hk1, hloop⟩ := Add_fields Sum64 bf bf1 d hadd
    refine ⟨?_, hm1, hk1⟩
    have hidem := addLoop_idem _ _ _ _ _ _ _ hloop
    cases bf1 with
    | mk m1 k1 bit1 =>
      simp only at hm1 hk1 hidem
      subst hm1
      subst hk1
      simp [Add, hidem]
  · intro hm2
    exact Add_isSome Sum64 bf d (by rw [hbm]; exact hm) (by rw [hbm]; exact hm2) hwf.1

/-- Witness of C5: the fresh filter `New 64 2`, the empty byte sequence and the
base hash that is constantly 0. -/
theorem C5_add_idempotent_witness :
    1 ≤ 64 ∧ Reachable (fun _ => 0) 64 2 (New 64 2) ∧
      (∀ bf1, Add (fun _ => 0) (New 64 2) [] = some bf1 →
        Add (fun _ => 0) bf1 [] = some bf1 ∧ bf1.m = (New 64 2).m ∧ bf1.k = (New 64 2).k) ∧
      (64 + 63 < 2 ^ 64 → ∃ bf1, Add (fun _ => 0) (New 64 2) [] = some bf1) :=
  ⟨by decide, Reachable.new,
    C5_add_idempotent (fun _ => 0) 64 2 (New 64 2) [] (by decide) Reachable.new⟩

/-! ## `Clear` -/

theorem OnesCount64_zero : OnesCount64 0 = 0 := by
  unfold OnesCount64
  rw [List.countP_eq_zero]
  intro t _
  simp

theorem countLoop_replicate_zero (n : Nat) : countLoop (List.replicate n 0) 0 = 0 := by
  induction n with
  | zero => rfl
  | succ n ih =>
    rw [List.replicate_succ, countLoop, OnesCount64_zero]
    exact ih

/-- What `Clear` gives on the sizes whose length expression does not wrap: for
`1 ≤ m ≤ 2^64 - 64` and `k ≥ 1` every word is 0, `CountZeroBits` returns `m`
and `Contains` returns `false` for every byte sequence. -/
theorem Clear_resets (Sum64 : Bytes → Nat) (bf : BloomFilter) (hm : 1 ≤ bf.m)
    (hm2 : bf.m + 63 < 2 ^ 64) (hk : 1 ≤ bf.k) :
    (∀ w, w ∈ (Clear bf).bit → w = 0) ∧ CountZeroBits (Clear bf) = bf.m ∧
      ∀ d, Contains Sum64 (Clear bf) d = some false := by
  refine ⟨?_, ?_, ?_⟩
  · intro w hw
    simp only [Clear, List.mem_replicate] at hw
    exact hw.2
  · simp only [CountZeroBits, Clear, countLoop_replicate_zero]
    rw [Nat.sub_zero, Nat.add_mod_right]
    exact Nat.mod_eq_of_lt (by omega)
  · intro d
    have hm0 : bf.m ≠ 0 := by omega
    obtain ⟨n, hn⟩ : ∃ n, bf.k = n + 1 := ⟨bf.k - 1, by omega⟩
    have hin : probe (computeHashes Sum64 d).1 (computeHashes Sum64 d).2 bf.m 0 / 64
        < wordCount bf.m := div_lt_wordCount _ _ hm2 (probe_lt _ _ _ _ hm0)
    simp only [Contains, Clear, hn, containsLoop, getIndices_eq _ _ _ _ hm0,
      List.getElem?_replicate, if_pos hin, Nat.and_zero, if_true]

/-- C6: `Clear` does not reset to an empty filter where the length expression
wraps. For the filter `New(2^64 - 1, 1)` the slice made by `Clear` has no
word: every word is 0 and `CountZeroBits` returns `m`, but `Contains` panics on
its first index, for every base hash and every byte sequence, instead of
returning `false`. -/
theorem C6_contains_panics_after_clear :
    (Clear (New (2 ^ 64 - 1) 1)).bit = [] ∧
      CountZeroBits (Clear (New (2 ^ 64 - 1) 1)) = 2 ^ 64 - 1 ∧
      ∀ (Sum64 : Bytes → Nat) (d : Bytes),
        Contains Sum64 (Clear (New (2 ^ 64 - 1) 1)) d = none := by
  have hbit : (Clear (New (2 ^ 64 - 1) 1)).bit = [] := by decide
  refine ⟨hbit, by decide, ?_⟩
  intro Sum64 d
  have hm0 : (Clear (New (2 ^ 64 - 1) 1)).m ≠ 0 := by decide
  have hk : (Clear (New (2 ^ 64 - 1) 1)).k = 1 := rfl
  simp only [Contains, hk, containsLoop, getIndices_eq _ _ _ _ hm0, hbit]
  simp

/-! ## `Intersection` -/

/-- C7: intersection is the word-wise AND. For well-formed filters `A` and `B`
with the same `m` and `k`, `A.Intersection(B)` returns a nil error and a
receiver with the same `m`, `k` and length whose word `i` is
`A[i] AND B[i]`; `Contains` answers `true` on it exactly when it answered
`true` on the old `A` and answers `true` on `B`. The operand is only read, and
when the operand is the receiver itself the receiver is left as it was. -/
theorem C7_intersection_is_and (Sum64 : Bytes → Nat) (A B : BloomFilter)
    (hm : A.m = B.m) (hk : A.k = B.k) (hA : WellFormed A) (hB : WellFormed B) :
    ∃ A1, Intersection A B = some (A1, none) ∧
      A1.m = A.m ∧ A1.k = A.k ∧ A1.bit.length = A.bit.length ∧
      (∀ (i a b : Nat), A.bit[i]? = some a → B.bit[i]? = some b → A1.bit[i]? = some (a &&& b)) ∧
      (∀ d, Contains Sum64 A1 d = some true ↔
        Contains Sum64 A d = some true ∧ Contains Sum64 B d = some true) ∧
      Intersection A A = some (A, none) := by
  have hlen := wellFormed_length_eq A B hm hA hB
  refine ⟨{ A with bit := List.zipWith (fun a b => a &&& b) A.bit B.bit }, ?_, rfl, rfl, ?_, ?_,
    ?_, ?_⟩
  · rw [Intersection_eq A B (Nat.le_of_eq hlen), mismatchError_eq_none A B hm hk]
  · simp only [List.length_zipWith]
    rw [← hlen, Nat.min_self]
  · intro i a b ha hb
    simp only
    rw [List.getElem?_zipWith, ha, hb]
  · intro d
    simp only [Contains_true_iff]
    constructor
    · intro h
      constructor
      · intro c hc
        obtain ⟨b, hb, ht⟩ := h c hc
        rw [testBitAt_zipWith_and, Bool.and_eq_true] at ht
        exact ⟨b, hb, ht.1⟩
      · intro c hc
        obtain ⟨b, hb, ht⟩ := h c (by rw [hk]; exact hc)
        rw [testBitAt_zipWith_and, Bool.and_eq_true] at ht
        exact ⟨b, by rw [← hm]; exact hb, ht.2⟩
    · rintro ⟨h1, h2⟩ c hc
      obtain ⟨b, hb, ht⟩ := h1 c hc
      obtain ⟨b2, hb2, ht2⟩ := h2 c (by rw [← hk]; exact hc)
      rw [← hm, hb] at hb2
      cases hb2
      refine ⟨b, hb, ?_⟩
      rw [testBitAt_zipWith_and, ht, ht2]
      rfl
  · rw [Intersection_eq A A (Nat.le_refl _), mismatchError_eq_none A A rfl rfl]
    have hself : List.zipWith (fun a b => a &&& b) A.bit A.bit = A.bit := by
      apply List.ext_getElem?
      intro j
      rw [List.getElem?_zipWith]
      cases A.bit[j]? with
      | none => rfl
      | some a => simp
    rw [hself]

/-- Witness of C7: two one-word filters with `m = 64`, `k = 1`. -/
theorem C7_intersection_is_and_witness :
    (BloomFilter.mk 64 1 [3]).m = (BloomFilter.mk 64 1 [5]).m ∧
      (BloomFilter.mk 64 1 [3]).k = (BloomFilter.mk 64 1 [5]).k ∧
      WellFormed (BloomFilter.mk 64 1 [3]) ∧ WellFormed (BloomFilter.mk 64 1 [5]) ∧
      ∃ A1, Intersection (BloomFilter.mk 64 1 [3]) (BloomFilter.mk 64 1 [5]) = some (A1, none) ∧
        A1.m = (BloomFilter.mk 64 1 [3]).m ∧ A1.k = (BloomFilter.mk 64 1 [3]).k ∧
        A1.bit.length = (BloomFilter.mk 64 1 [3]).bit.length ∧
        (∀ (i a b : Nat), (BloomFilter.mk 64 1 [3]).bit[i]? = some a →
          (BloomFilter.mk 64 1 [5]).bit[i]? = some b → A1.bit[i]? = some (a &&& b)) ∧
        (∀ d, Contains (fun _ => 0) A1 d = some true ↔
          Contains (fun _ => 0) (BloomFilter.mk 64 1 [3]) d = some true ∧
            Contains (fun _ => 0) (BloomFilter.mk 64 1 [5]) d = some true) ∧
        Intersection (BloomFilter.mk 64 1 [3]) (BloomFilter.mk 64 1 [3])
          = some (BloomFilter.mk 64 1 [3], none) :=
  ⟨rfl, rfl, by decide, by decide,
    C7_intersection_is_and (fun _ => 0) (BloomFilter.mk 64 1 [3]) (BloomFilter.mk 64 1 [5])
      rfl rfl (by decide) (by decide)⟩

/-! ## `Subset` -/

theorem Subset_eq (bf1 bf2 : BloomFilter) (h : bf1.bit.length ≤ bf2.bit.length) :
    ∃ v, Subset bf1 bf2 = some (mismatchError bf1 bf2, v) ∧
      (v = true ↔ ∀ (i a b : Nat), bf1.bit[i]? = some a → bf2.bit[i]? = some b → a &&& b = b) := by
  obtain ⟨v, hv, hiff⟩ := subsetLoop_spec bf1.bit bf2.bit bf1.bit.length 0 (by omega) (by omega)
  refine ⟨v, by simp [Subset, hv], ?_⟩
  rw [hiff]
  constructor
  · intro hall i a b ha hb
    have hi : i < bf1.bit.length := (List.getElem?_eq_some.mp ha).1
    exact hall i a b (Nat.zero_le _) (by omega) ha hb
  · intro hall c a b _ _ ha hb
    exact hall c a b ha hb

theorem words_subset_iff_bits_subset (l1 l2 : List Nat) (hlen : l1.length = l2.length)
    (h2 : ∀ w, w ∈ l2 → w < 2 ^ 64) :
    (∀ (i a b : Nat), l1[i]? = some a → l2[i]? = some b → a &&& b = b) ↔
      ∀ p, testBitAt l2 p = true → testBitAt l1 p = true := by
  constructor
  · intro hall p hp
    obtain ⟨b, hb, hbt⟩ := (testBitAt_true_iff l2 p).mp hp
    have hi2 : p / 64 < l2.length := (List.getElem?_eq_some.mp hb).1
    have hi1 : p / 64 < l1.length := by omega
    have ha := List.getElem?_eq_getElem hi1
    rw [testBitAt_of_getElem? ha]
    exact (land_eq_right_iff _ _).mp (hall _ _ _ ha hb) _ hbt
  · intro hall i a b ha hb
    rw [land_eq_right_iff]
    intro t ht
    by_cases ht64 : t < 64
    · have hd : (64 * i + t) / 64 = i := by omega
      have hmod : (64 * i + t) % 64 = t := by omega
      have hp : testBitAt l2 (64 * i + t) = true := by
        unfold testBitAt
        rw [hd, hb, hmod]
        exact ht
      have := hall _ hp
      unfold testBitAt at this
      rw [hd, ha, hmod] at this
      exact this
    · have hb64 : b < 2 ^ 64 := h2 b (List.getElem?_mem hb)
      have hbt : b < 2 ^ t :=
        Nat.lt_of_lt_of_le hb64 (Nat.pow_le_pow_right (by decide) (Nat.le_of_not_lt ht64))
      rw [Nat.testBit_lt_two_pow hbt] at ht
      cases ht

/-- C8: the subset test. For well-formed filters `A` and `B` with the same `m`
and `k`, `A.Subset(B)` returns a nil error and a boolean that is `true` exactly
when `A[i] AND B[i] == B[i]` for every word `i`, which is exactly when every
bit set in `B` is set in `A`. The call only reads both filters: it returns no
filter. -/
theorem C8_subset_characterisation (A B : BloomFilter) (hm : A.m = B.m) (hk : A.k = B.k)
    (hA : WellFormed A) (hB : WellFormed B) :
    ∃ v, Subset A B = some (none, v) ∧
      (v = true ↔ ∀ (i a b : Nat), A.bit[i]? = some a → B.bit[i]? = some b → a &&& b = b) ∧
      (v = true ↔ ∀ p, testBitAt B.bit p = true → testBitAt A.bit p = true) := by
  have hlen := wellFormed_length_eq A B hm hA hB
  obtain ⟨v, hv, hiff⟩ := Subset_eq A B (Nat.le_of_eq hlen)
  rw [mismatchError_eq_none A B hm hk] at hv
  refine ⟨v, hv, hiff, ?_⟩
  rw [hiff]
  exact words_subset_iff_bits_subset A.bit B.bit hlen hB.2

/-- Witness of C8: two one-word filters with `m = 64`, `k = 1`. -/
theorem C8_subset_characterisation_witness :
    (BloomFilter.mk 64 1 [7]).m = (BloomFilter.mk 64 1 [5]).m ∧
      (BloomFilter.mk 64 1 [7]).k = (BloomFilter.mk 64 1 [5]).k ∧
      WellFormed (BloomFilter.mk 64 1 [7]) ∧ WellFormed (BloomFilter.mk 64 1 [5]) ∧
      ∃ v, Subset (BloomFilter.mk 64 1 [7]) (BloomFilter.mk 64 1 [5]) = some (none, v) ∧
        (v = true ↔ ∀ (i a b : Nat), (BloomFilter.mk 64 1 [7]).bit[i]? = some a →
          (BloomFilter.mk 64 1 [5]).bit[i]? = some b → a &&& b = b) ∧
        (v = true ↔ ∀ p, testBitAt (BloomFilter.mk 64 1 [5]).bit p = true →
          testBitAt (BloomFilter.mk 64 1 [7]).bit p = true) :=
  ⟨rfl, rfl, by decide, by decide,
    C8_subset_characterisation (BloomFilter.mk 64 1 [7]) (BloomFilter.mk 64 1 [5]) rfl rfl
      (by decide) (by decide)⟩

/-- C9: the subset test is reflexive. For every filter `A`, whatever its `m`,
`k` and words, `A.Subset(A)` returns a nil error and `true`. -/
theorem C9_subset_reflexive (A : BloomFilter) : Subset A A = some (none, true) := by
  obtain ⟨v, hv, hiff⟩ := Subset_eq A A (Nat.le_refl _)
  rw [mismatchError_eq_none A A rfl rfl] at hv
  have hvt : v = true := by
    rw [hiff]
    intro i a b ha hb
    rw [ha] at hb
    cases hb
    exact Nat.and_self a
  rw [hv, hvt]

/-! ## `CountZeroBits` -/

theorem countLoop_eq (bit : List Nat) (cnt : Nat) (hc : cnt < 2 ^ 64) :
    countLoop bit cnt = (cnt + popcountAll bit) % 2 ^ 64 := by
  induction bit generalizing cnt with
  | nil =>
    simp only [countLoop, popcountAll, List.map_nil, List.sum_nil, Nat.add_zero]
    exact (Nat.mod_eq_of_lt hc).symm
  | cons v rest ih =>
    rw [countLoop, ih _ (Nat.mod_lt _ (Nat.pow_pos (by decide)))]
    simp only [popcountAll, List.map_cons, List.sum_cons]
    rw [Nat.mod_add_mod, Nat.add_assoc]

theorem testBitAt_cons_lt (w : Nat) (ws : List Nat) (t : Nat) (ht : t < 64) :
    testBitAt (w :: ws) t = w.testBit t := by
  have hd : t / 64 = 0 := by omega
  have hmod : t % 64 = t := by omega
  simp [testBitAt, hd, hmod]

theorem testBitAt_cons_add (w : Nat) (ws : List Nat) (x : Nat) :
    testBitAt (w :: ws) (64 + x) = testBitAt ws x := by
  have hd : (64 + x) / 64 = x / 64 + 1 := by omega
  have hmod : (64 + x) % 64 = x % 64 := by omega
  simp [testBitAt, hd, hmod]

theorem popcountAll_eq_countP (bit : List Nat) :
    popcountAll bit = (List.range (64 * bit.length)).countP (fun b => testBitAt bit b) := by
  induction bit with
  | nil => simp [popcountAll]
  | cons w ws ih =>
    have hlen : 64 * (w :: ws).length = 64 + 64 * ws.length := by
      simp only [List.length_cons]
      omega
    rw [hlen, List.range_add, List.countP_append, List.countP_map]
    have h1 : (List.range 64).countP (fun b => testBitAt (w :: ws) b) = OnesCount64 w := by
      unfold OnesCount64
      apply List.countP_congr
      intro t ht
      rw [testBitAt_cons_lt w ws t (List.mem_range.mp ht)]
    have h2 : (List.range (64 * ws.length)).countP
        ((fun b => testBitAt (w :: ws) b) ∘ fun x => 64 + x) = popcountAll ws := by
      rw [ih]
      apply List.countP_congr
      intro x _
      simp only [Function.comp]
      rw [testBitAt_cons_add]
    rw [h1, h2]
    simp [popcountAll]

theorem countP_range_of_false (p : Nat → Bool) (a n : Nat) (h : ∀ b, a ≤ b → p b = false)
    (han : a ≤ n) : (List.range n).countP p = (List.range a).countP p := by
  obtain ⟨e, he⟩ : ∃ e, n = a + e := ⟨n - a, by omega⟩
  subst he
  rw [List.range_add, List.countP_append, List.countP_map]
  have hz : (List.range e).countP (p ∘ fun x => a + x) = 0 := by
    rw [List.countP_eq_zero]
    intro x _
    simp only [Function.comp]
    rw [h (a + x) (by omega)]
    simp
  rw [hz, Nat.add_zero]

theorem testBitAt_beyond_length (bit : List Nat) (b : Nat) (h : 64 * bit.length ≤ b) :
    testBitAt bit b = false := by
  have hlen : bit.length ≤ b / 64 := by omega
  simp [testBitAt, List.getElem?_eq_none hlen]

theorem popcountAll_eq_countP_below (bit : List Nat) (m : Nat)
    (hhigh : ∀ b, m ≤ b → testBitAt bit b = false) :
    popcountAll bit = (List.range m).countP (fun b => testBitAt bit b) := by
  rw [popcountAll_eq_countP]
  rw [← countP_range_of_false (fun b => testBitAt bit b) (64 * bit.length)
    (max m (64 * bit.length)) (testBitAt_beyond_length bit) (Nat.le_max_right _ _)]
  exact countP_range_of_false (fun b => testBitAt bit b) m (max m (64 * bit.length)) hhigh
    (Nat.le_max_left _ _)

theorem countP_add_zeroPositions (bit : List Nat) (m : Nat) :
    (List.range m).countP (fun b => testBitAt bit b) + zeroPositions bit m = m := by
  unfold zeroPositions
  induction m with
  | zero => rfl
  | succ n ih =>
    rw [List.range_succ, List.countP_append, List.countP_append]
    cases ht : testBitAt bit n with
    | true =>
      simp only [List.countP_cons, List.countP_nil, ht]
      simp only [Bool.not_true, Bool.false_eq_true, if_false, if_true]
      omega
    | false =>
      simp only [List.countP_cons, List.countP_nil, ht]
      simp only [Bool.not_false, Bool.false_eq_true, if_false, if_true]
      omega

/-- C10: `CountZeroBits` counts the zero bits. In every state reachable from
`New m k` (`1 ≤ m`, `m` a `uint64`) no bit at a position `≥ m` is set, the
population count of all words is at most `m`, so the subtraction does not
wrap, and `CountZeroBits` returns `m` minus that population count, which is the
number of positions in `[0, m)` whose bit is 0; when the length expression does
not wrap (`m ≤ 2^64 - 64`) each of these positions lies inside the slice. -/
theorem C10_count_zero_bits (Sum64 : Bytes → Nat) (m k : Nat) (bf : BloomFilter)
    (hm : 1 ≤ m) (hm64 : m < 2 ^ 64) (hr : Reachable Sum64 m k bf) :
    (∀ b, m ≤ b → testBitAt bf.bit b = false) ∧
      popcountAll bf.bit ≤ m ∧
      CountZeroBits bf = m - popcountAll bf.bit ∧
      CountZeroBits bf = zeroPositions bf.bit m ∧
      (m + 63 < 2 ^ 64 → ∀ b, b < m → b / 64 < bf.bit.length) := by
  obtain ⟨hwf, hbm, _, hhigh⟩ := reachable_inv Sum64 m k bf hr
  have hpop := popcountAll_eq_countP_below bf.bit m hhigh
  have hsum := countP_add_zeroPositions bf.bit m
  rw [← hpop] at hsum
  have hle : popcountAll bf.bit ≤ m := by omega
  have hcnt : countLoop bf.bit 0 = popcountAll bf.bit := by
    rw [countLoop_eq bf.bit 0 (Nat.pow_pos (by decide)), Nat.zero_add]
    exact Nat.mod_eq_of_lt (by omega)
  have hval : CountZeroBits bf = m - popcountAll bf.bit := by
    unfold CountZeroBits
    simp only [hcnt, hbm]
    have hsplit : m + 2 ^ 64 - popcountAll bf.bit = (m - popcountAll bf.bit) + 2 ^ 64 := by
      omega
    rw [hsplit, Nat.add_mod_right]
    exact Nat.mod_eq_of_lt (by omega)
  refine ⟨hhigh, hle, hval, ?_, ?_⟩
  · rw [hval]
    omega
  · intro hm2 b hb
    rw [hwf.1, hbm]
    exact div_lt_wordCount m b hm2 hb

/-- Witness of C10: the filter `New 100 3` after `Add` of the empty byte
sequence under the base hash that is constantly 0. The three probes are the
positions 0, 10 and 13, so the first word is 9217, the population count is 3
and `CountZeroBits` returns 97. -/
theorem C10_count_zero_bits_witness :
    1 ≤ 100 ∧ 100 < 2 ^ 64 ∧
      Add (fun _ => 0) (New 100 3) [] = some (BloomFilter.mk 100 3 [9217, 0]) ∧
      Reachable (fun _ => 0) 100 3 (BloomFilter.mk 100 3 [9217, 0]) ∧
      ((∀ b, 100 ≤ b → testBitAt (BloomFilter.mk 100 3 [9217, 0]).bit b = false) ∧
        popcountAll (BloomFilter.mk 100 3 [9217, 0]).bit ≤ 100 ∧
        CountZeroBits (BloomFilter.mk 100 3 [9217, 0])
          = 100 - popcountAll (BloomFilter.mk 100 3 [9217, 0]).bit ∧
        CountZeroBits (BloomFilter.mk 100 3 [9217, 0])
          = zeroPositions (BloomFilter.mk 100 3 [9217, 0]).bit 100 ∧
        (100 + 63 < 2 ^ 64 →
          ∀ b, b < 100 → b / 64 < (BloomFilter.mk 100 3 [9217, 0]).bit.length)) ∧
      popcountAll (BloomFilter.mk 100 3 [9217, 0]).bit = 3 ∧
      CountZeroBits (BloomFilter.mk 100 3 [9217, 0]) = 97 ∧
      zeroPositions (BloomFilter.mk 100 3 [9217, 0]).bit 100 = 97 :=
  ⟨by decide, by decide, by decide,
    Reachable.add [] Reachable.new (by decide),
    C10_count_zero_bits (fun _ => 0) 100 3 (BloomFilter.mk 100 3 [9217, 0]) (by decide)
      (by decide) (Reachable.add [] Reachable.new (by decide)),
    by decide, by decide, by decide⟩

/-! ## Construction -/

theorem ceilWords_spec (m : Nat) :
    m ≤ 64 * ceilWords m ∧ ∀ n, m ≤ 64 * n → ceilWords m ≤ n := by
  unfold ceilWords
  split <;> constructor <;> omega

theorem wordCount_eq_ceilWords (m : Nat) (h : m + 63 < 2 ^ 64) : wordCount m = ceilWords m := by
  rw [wordCount_eq m h]
  unfold ceilWords
  split <;> omega

/-- The size `New` gives on the sizes whose length expression does not wrap:
for `m ≤ 2^64 - 64` the filter stores `m` and `k` and has exactly
`ceil(m/64)` words, all zero. -/
theorem New_size (m k : Nat) (h : m + 63 < 2 ^ 64) :
    (New m k).m = m ∧ (New m k).k = k ∧ (New m k).bit.length = ceilWords m ∧
      ∀ w, w ∈ (New m k).bit → w = 0 := by
  refine ⟨rfl, rfl, ?_, ?_⟩
  · simp only [New, List.length_replicate]
    exact wordCount_eq_ceilWords m h
  · intro w hw
    simp only [New, List.mem_replicate] at hw
    exact hw.2

/-- C11: the construction size is wrong where the length expression wraps.
`New(2^64 - 1, 1)` stores `m` and `k`, but its bit array has 0 words while
`ceil(m/64)` is `2^58`: the sum `m + 63` wraps to 62 in 64-bit arithmetic. -/
theorem C11_new_length_wraps :
    (New (2 ^ 64 - 1) 1).m = 2 ^ 64 - 1 ∧ (New (2 ^ 64 - 1) 1).k = 1 ∧
      (New (2 ^ 64 - 1) 1).bit.length = 0 ∧ ceilWords (2 ^ 64 - 1) = 2 ^ 58 ∧
      (2 ^ 64 - 1 + 63) % 2 ^ 64 = 62 := by
  refine ⟨rfl, rfl, by decide, by decide, by decide⟩

/-! ## The structural invariant -/

theorem Union_fields (bf1 bf2 bf3 : BloomFilter) (err : Option String)
    (h : Union bf1 bf2 = some (bf3, err)) :
    bf3.m = bf1.m ∧ bf3.k = bf1.k ∧ bf3.bit.length = bf1.bit.length := by
  have hlen : bf1.bit.length ≤ bf2.bit.length := by
    unfold Union at h
    simp only [Option.map_eq_some'] at h
    obtain ⟨r, hr, _⟩ := h
    exact combineLoop_some_length _ _ _ r hr
  rw [Union_eq bf1 bf2 hlen] at h
  simp only [Option.some.injEq, Prod.mk.injEq] at h
  rw [← h.1]
  refine ⟨rfl, rfl, ?_⟩
  simp only [List.length_zipWith]
  exact Nat.min_eq_left hlen

theorem Intersection_fields (bf1 bf2 bf3 : BloomFilter) (err : Option String)
    (h : Intersection bf1 bf2 = some (bf3, err)) :
    bf3.m = bf1.m ∧ bf3.k = bf1.k ∧ bf3.bit.length = bf1.bit.length := by
  have hlen : bf1.bit.length ≤ bf2.bit.length := by
    unfold Intersection at h
    simp only [Option.map_eq_some'] at h
    obtain ⟨r, hr, _⟩ := h
    exact combineLoop_some_length _ _ _ r hr
  rw [Intersection_eq bf1 bf2 hlen] at h
  simp only [Option.some.injEq, Prod.mk.injEq] at h
  rw [← h.1]
  refine ⟨rfl, rfl, ?_⟩
  simp only [List.length_zipWith]
  exact Nat.min_eq_left hlen

/-- The part of the structural invariant that holds for every size: on a
filter whose slice has the length `New` gives it, every mutating operation
that returns keeps `m`, `k` and that length (`Contains`, `Subset` and
`CountZeroBits` assign to no field and return no filter); with equal `m` and
`k` the binary operations do return. -/
theorem structural_invariant (Sum64 : Bytes → Nat) (A B : BloomFilter)
    (hA : WellFormed A) (hB : WellFormed B) (hm : A.m = B.m) :
    (∀ d A1, Add Sum64 A d = some A1 →
        A1.m = A.m ∧ A1.k = A.k ∧ A1.bit.length = wordCount A.m) ∧
      ((Clear A).m = A.m ∧ (Clear A).k = A.k ∧ (Clear A).bit.length = wordCount A.m) ∧
      (∃ A1 err, Union A B = some (A1, err) ∧
        A1.m = A.m ∧ A1.k = A.k ∧ A1.bit.length = wordCount A.m) ∧
      (∃ A1 err, Intersection A B = some (A1, err) ∧
        A1.m = A.m ∧ A1.k = A.k ∧ A1.bit.length = wordCount A.m) := by
  have hlen := wellFormed_length_eq A B hm hA hB
  refine ⟨?_, ⟨rfl, rfl, by simp [Clear]⟩, ?_, ?_⟩
  · intro d A1 hadd
    obtain ⟨hm1, hk1, hloop⟩ := Add_fields Sum64 A A1 d hadd
    obtain ⟨hl, _, _, _⟩ := addLoop_spec _ _ _ _ _ _ _ hloop
    exact ⟨hm1, hk1, by rw [hl, hA.1]⟩
  · have hu := Union_eq A B (Nat.le_of_eq hlen)
    obtain ⟨h1, h2, h3⟩ := Union_fields A B _ _ hu
    exact ⟨_, _, hu, h1, h2, by rw [h3, hA.1]⟩
  · have hu := Intersection_eq A B (Nat.le_of_eq hlen)
    obtain ⟨h1, h2, h3⟩ := Intersection_fields A B _ _ hu
    exact ⟨_, _, hu, h1, h2, by rw [h3, hA.1]⟩

/-- C12: the length part of the structural invariant is broken where the
length expression wraps. On `New(2^64 - 1, 0)` every `Add` returns and `Clear`
returns, `m` and `k` are kept and the length stays what it was at
construction, but that length is 0 words, not `ceil(m/64) = 2^58`. -/
theorem C12_length_is_not_ceil_on_wrap :
    (∀ (Sum64 : Bytes → Nat) (d : Bytes),
        Add Sum64 (New (2 ^ 64 - 1) 0) d = some (New (2 ^ 64 - 1) 0)) ∧
      Clear (New (2 ^ 64 - 1) 0) = New (2 ^ 64 - 1) 0 ∧
      (New (2 ^ 64 - 1) 0).bit.length = 0 ∧
      ceilWords (New (2 ^ 64 - 1) 0).m = 2 ^ 58 := by
  refine ⟨?_, rfl, by decide, by decide⟩
  intro Sum64 d
  rfl

/-! ## Degenerate parameters -/

/-- C13, as stated, fails: `New(0, 0)` does not fail, it returns the filter
with `m = 0`, `k = 0` and no word, and that filter answers a query. -/
theorem C13_new_zero_zero_returns :
    New 0 0 = { m := 0, k := 0, bit := [] } ∧
      Contains (fun _ => 0) (New 0 0) [] = some true := by
  constructor
  · decide
  · rfl

/-- C13, amended: `New` validates nothing and has no error result. Whenever
`m` or `k` is 0 and the allocation of the `(m+63)/64` words succeeds, `New`
returns a filter storing the given `m` and `k`; with `m = 0` the allocation
always succeeds and the bit array is empty; with `k = 0` `Add` changes nothing
on the filter and `Contains` returns `true` for every byte sequence. -/
theorem C13_new_accepts_degenerate (maxWords m k : Nat) (h : m = 0 ∨ k = 0)
    (hfit : wordCount m ≤ maxWords) :
    NewAlloc maxWords m k = some (New m k) ∧
      (New m k).m = m ∧ (New m k).k = k ∧
      (m = 0 → (New m k).bit = [] ∧ ∀ limit, NewAlloc limit m k = some (New m k)) ∧
      (k = 0 → ∀ (Sum64 : Bytes → Nat) (d : Bytes),
        Add Sum64 (New m k) d = some (New m k) ∧
        Contains Sum64 (New m k) d = some true) := by
  have h0 : wordCount 0 = 0 := by decide
  refine ⟨by simp [NewAlloc, makeWords, hfit, New], rfl, rfl, ?_, ?_⟩
  · intro hm
    subst hm
    refine ⟨by simp [New, h0], ?_⟩
    intro limit
    simp [NewAlloc, makeWords, h0, New]
  · intro hk
    subst hk
    intro Sum64 d
    exact ⟨rfl, rfl⟩

/-- Witness of C13: `New(1000, 0)` under an allocator limit of `2^45` words,
and `New(0, 3)`. -/
theorem C13_new_accepts_degenerate_witness :
    ((1000 = 0 ∨ 0 = 0) ∧ wordCount 1000 ≤ 2 ^ 45 ∧
      (NewAlloc (2 ^ 45) 1000 0 = some (New 1000 0) ∧
        (New 1000 0).m = 1000 ∧ (New 1000 0).k = 0 ∧
        (1000 = 0 → (New 1000 0).bit = [] ∧
          ∀ limit, NewAlloc limit 1000 0 = some (New 1000 0)) ∧
        (0 = 0 → ∀ (Sum64 : Bytes → Nat) (d : Bytes),
          Add Sum64 (New 1000 0) d = some (New 1000 0) ∧
          Contains Sum64 (New 1000 0) d = some true))) ∧
      (New 1000 0).bit.length = 16 ∧
      NewAlloc 0 0 3 = some { m := 0, k := 3, bit := [] } :=
  ⟨⟨Or.inr rfl, by decide,
      C13_new_accepts_degenerate (2 ^ 45) 1000 0 (Or.inr rfl) (by decide)⟩,
    by decide, by decide⟩

/-! ## What `Add` writes -/

theorem probe_eq (h1 h2 m i : Nat) : probe h1 h2 m i = (h1 + i * h2) % 2 ^ 64 % m := by
  unfold probe
  rw [Nat.add_mod_mod]

theorem div_lt_ceilWords (m b : Nat) (hb : b < m) : b / 64 < ceilWords m := by
  unfold ceilWords
  split <;> omega

/-- C15: `Add` sets exactly the probe bits. On a filter with `m ≥ 1` whose bit
array has `ceil(m/64)` words, `Add(d)` returns, keeps `m`, `k` and the length,
and afterwards a position holds a set bit exactly when it held one before or is
`((h1 + i*h2) mod 2^64) mod m` for some `i < k`, with `(h1, h2)` the hashes of
`d`; a position that is no probe keeps its bit. -/
theorem C15_add_sets_exactly_probe_bits (Sum64 : Bytes → Nat) (bf : BloomFilter) (d : Bytes)
    (hm : 1 ≤ bf.m) (hlen : bf.bit.length = ceilWords bf.m) :
    ∃ bf1, Add Sum64 bf d = some bf1 ∧
      bf1.m = bf.m ∧ bf1.k = bf.k ∧ bf1.bit.length = bf.bit.length ∧
      (∀ b, testBitAt bf1.bit b = true ↔
        (testBitAt bf.bit b = true ∨
          ∃ i, i < bf.k ∧
            b = ((computeHashes Sum64 d).1 + i * (computeHashes Sum64 d).2) % 2 ^ 64 % bf.m)) ∧
      (∀ b, (¬ ∃ i, i < bf.k ∧
            b = ((computeHashes Sum64 d).1 + i * (computeHashes Sum64 d).2) % 2 ^ 64 % bf.m) →
        testBitAt bf1.bit b = testBitAt bf.bit b) := by
  have hm0 : bf.m ≠ 0 := by omega
  obtain ⟨r, hr⟩ := addLoop_isSome (computeHashes Sum64 d).1 (computeHashes Sum64 d).2 bf.m hm0
    bf.k 0 bf.bit (by
      intro c _ _
      rw [hlen]
      exact div_lt_ceilWords _ _ (probe_lt _ _ _ _ hm0))
  obtain ⟨hl, _, _, _⟩ := addLoop_spec _ _ _ _ _ _ _ hr
  have hiff : ∀ b, testBitAt r b = true ↔
      (testBitAt bf.bit b = true ∨
        ∃ i, i < bf.k ∧
          b = ((computeHashes Sum64 d).1 + i * (computeHashes Sum64 d).2) % 2 ^ 64 % bf.m) := by
    intro b
    rw [testBitAt_addLoop _ _ _ _ _ _ _ hr b]
    constructor
    · rintro (h | ⟨c, _, hc2, hc3⟩)
      · exact Or.inl h
      · exact Or.inr ⟨c, by omega, by rw [← hc3, probe_eq]⟩
    · rintro (h | ⟨c, hc1, hc2⟩)
      · exact Or.inl h
      · exact Or.inr ⟨c, Nat.zero_le _, by omega, by rw [hc2, probe_eq]⟩
  refine ⟨{ bf with bit := r }, by simp [Add, hr], rfl, rfl, hl, hiff, ?_⟩
  intro b hno
  simp only
  cases h1 : testBitAt r b with
  | true =>
    rcases (hiff b).mp h1 with h | h
    · exact h.symm
    · exact absurd h hno
  | false =>
    cases h2 : testBitAt bf.bit b with
    | false => rfl
    | true =>
      rw [(hiff b).mpr (Or.inl h2)] at h1
      cases h1

/-- Witness of C15: the fresh filter `New 100 3`, whose two words are
`ceil(100/64)`. -/
theorem C15_add_sets_exactly_probe_bits_witness :
    1 ≤ (New 100 3).m ∧ (New 100 3).bit.length = ceilWords (New 100 3).m ∧
      ∃ bf1, Add (fun _ => 0) (New 100 3) [] = some bf1 ∧
        bf1.m = (New 100 3).m ∧ bf1.k = (New 100 3).k ∧
        bf1.bit.length = (New 100 3).bit.length ∧
        (∀ b, testBitAt bf1.bit b = true ↔
          (testBitAt (New 100 3).bit b = true ∨
            ∃ i, i < (New 100 3).k ∧
              b = ((computeHashes (fun _ => 0) []).1 + i * (computeHashes (fun _ => 0) []).2)
                % 2 ^ 64 % (New 100 3).m)) ∧
        (∀ b, (¬ ∃ i, i < (New 100 3).k ∧
              b = ((computeHashes (fun _ => 0) []).1 + i * (computeHashes (fun _ => 0) []).2)
                % 2 ^ 64 % (New 100 3).m) →
          testBitAt bf1.bit b = testBitAt (New 100 3).bit b) :=
  ⟨by decide, by decide,
    C15_add_sets_exactly_probe_bits (fun _ => 0) (New 100 3) [] (by decide) (by decide)⟩

/-! ## Probe indices -/

/-- The value and the range of `getIndices`: for `m ≥ 1` it returns
`((h1 + i*h2) mod 2^64) mod m`, which is below `m`. -/
theorem getIndices_value (h1 h2 i m : Nat) (hm : 1 ≤ m) :
    getIndices h1 h2 i m = some ((h1 + i * h2) % 2 ^ 64 % m) ∧
      (h1 + i * h2) % 2 ^ 64 % m < m := by
  have hm0 : m ≠ 0 := by omega
  rw [getIndices_eq h1 h2 i m hm0, probe_eq]
  exact ⟨rfl, Nat.mod_lt _ (by omega)⟩

/-- Probe indices are in range on the sizes whose length expression does not
wrap: for `1 ≤ m ≤ 2^64 - 64` every word index `bit/64` is inside the slice
of every filter reachable from `New m k`, and `Add` and `Contains` return. -/
theorem probes_in_bounds (Sum64 : Bytes → Nat) (m k : Nat) (bf : BloomFilter)
    (hm : 1 ≤ m) (hm2 : m + 63 < 2 ^ 64) (hr : Reachable Sum64 m k bf) :
    (∀ h1 h2 i, ∃ b, getIndices h1 h2 i bf.m = some b ∧ b < bf.m ∧ b / 64 < bf.bit.length) ∧
      ∀ d, (∃ bf1, Add Sum64 bf d = some bf1) ∧ ∃ v, Contains Sum64 bf d = some v := by
  obtain ⟨hwf, hbm, _, _⟩ := reachable_inv Sum64 m k bf hr
  have hm0 : bf.m ≠ 0 := by omega
  have hin : ∀ b, b < bf.m → b / 64 < bf.bit.length := by
    intro b hb
    rw [hwf.1]
    exact div_lt_wordCount _ _ (by rw [hbm]; exact hm2) hb
  constructor
  · intro h1 h2 i
    exact ⟨_, getIndices_eq h1 h2 i bf.m hm0, probe_lt _ _ _ _ hm0,
      hin _ (probe_lt _ _ _ _ hm0)⟩
  · intro d
    constructor
    · exact Add_isSome Sum64 bf d (by omega) (by rw [hbm]; exact hm2) hwf.1
    · exact containsLoop_isSome _ _ bf.m hm0 bf.bit bf.k 0
        (fun c _ _ => hin _ (probe_lt _ _ _ _ hm0))

/-- C16: probe indices leave the slice where the length expression wraps. For
`m = 2^64 - 1` every call of `getIndices` returns a value below `m`, but the
slice of `New(2^64 - 1, 1)` has no word, so the word index `bit/64` of every
probe is out of range. -/
theorem C16_probe_out_of_range_on_wrap :
    ∀ h1 h2 i : Nat, ∃ b, getIndices h1 h2 i (2 ^ 64 - 1) = some b ∧ b < 2 ^ 64 - 1 ∧
      (New (2 ^ 64 - 1) 1).bit[b / 64]? = none := by
  intro h1 h2 i
  have hm0 : (2 ^ 64 - 1 : Nat) ≠ 0 := by decide
  have hbit : (New (2 ^ 64 - 1) 1).bit = [] := by decide
  refine ⟨_, getIndices_eq h1 h2 i _ hm0, probe_lt _ _ _ _ hm0, ?_⟩
  rw [hbit]
  rfl

/-! ## `Union` without a matching operand -/

/-- C17, as stated, fails: with a receiver of 3 words and an operand of 1 word
(`m` differs) `Union` does not return the error after the OR, it panics in its
loop. -/
theorem C17_union_longer_receiver_panics :
    Union (New 129 3) (New 64 3) = none :=
  Union_panics_of_lt 129 64 3 3 (by decide)

/-- C17, amended: `Union` is not fail-fast. Whenever the receiver has no more
words than the operand, `A.Union(B)` returns, whether or not `m` or `k`
differ: word `i` of the receiver becomes `A[i] OR B[i]`, `m`, `k` and the
length are kept, and the error computed by the two checks is returned after the
OR, non-nil exactly when `m` or `k` differ. The operand is only read. -/
theorem C17_union_not_fail_fast (A B : BloomFilter) (hlen : A.bit.length ≤ B.bit.length) :
    ∃ A1 err, Union A B = some (A1, err) ∧
      A1.m = A.m ∧ A1.k = A.k ∧ A1.bit.length = A.bit.length ∧
      (∀ (i a b : Nat), A.bit[i]? = some a → B.bit[i]? = some b → A1.bit[i]? = some (a ||| b)) ∧
      (err ≠ none ↔ (A.m ≠ B.m ∨ A.k ≠ B.k)) := by
  have hu := Union_eq A B hlen
  obtain ⟨h1, h2, h3⟩ := Union_fields A B _ _ hu
  refine ⟨_, _, hu, h1, h2, h3, ?_, ?_⟩
  · intro i a b ha hb
    simp only
    rw [List.getElem?_zipWith, ha, hb]
  · by_cases hm : A.m = B.m <;> by_cases hk : A.k = B.k <;> simp [mismatchError, hm, hk]

/-- Witness of C17: a receiver with `m = 64` holding bit 0 and an operand with
`m = 128`. -/
theorem C17_union_not_fail_fast_witness :
    (BloomFilter.mk 64 3 [1]).bit.length ≤ (BloomFilter.mk 128 3 [2, 4]).bit.length ∧
      ∃ A1 err, Union (BloomFilter.mk 64 3 [1]) (BloomFilter.mk 128 3 [2, 4]) = some (A1, err) ∧
        A1.m = (BloomFilter.mk 64 3 [1]).m ∧ A1.k = (BloomFilter.mk 64 3 [1]).k ∧
        A1.bit.length = (BloomFilter.mk 64 3 [1]).bit.length ∧
        (∀ (i a b : Nat), (BloomFilter.mk 64 3 [1]).bit[i]? = some a →
          (BloomFilter.mk 128 3 [2, 4]).bit[i]? = some b → A1.bit[i]? = some (a ||| b)) ∧
        (err ≠ none ↔ ((BloomFilter.mk 64 3 [1]).m ≠ (BloomFilter.mk 128 3 [2, 4]).m ∨
          (BloomFilter.mk 64 3 [1]).k ≠ (BloomFilter.mk 128 3 [2, 4]).k)) :=
  ⟨by decide,
    C17_union_not_fail_fast (BloomFilter.mk 64 3 [1]) (BloomFilter.mk 128 3 [2, 4]) (by decide)⟩

/-! ## The hash mix -/

/-- C18: the hash mix. With `h` the 64-bit base hash of `d`, `computeHashes`
returns `h1 = h` and `h2 = t XOR (t >> 33)` for
`t = ((h XOR 0x8E3C5B2F1A0D9E74) * 0x9E3779B97F4A7C15) mod 2^64`; the pair is a
function of `h` alone, both components are 64-bit values, and on the empty
byte sequence the base hash 0 gives `h2 = 9750551421032225513`. -/
theorem C18_hash_mix (Sum64 : Bytes → Nat) (d : Bytes) :
    computeHashes Sum64 d =
        (Sum64 d % 2 ^ 64,
          ((((Sum64 d % 2 ^ 64) ^^^ 0x8E3C5B2F1A0D9E74) * 0x9E3779B97F4A7C15) % 2 ^ 64) ^^^
            (((((Sum64 d % 2 ^ 64) ^^^ 0x8E3C5B2F1A0D9E74) * 0x9E3779B97F4A7C15) % 2 ^ 64)
              >>> 33)) ∧
      (computeHashes Sum64 d).1 < 2 ^ 64 ∧ (computeHashes Sum64 d).2 < 2 ^ 64 ∧
      computeHashes (fun _ => 0) [] = (0, 9750551421032225513) ∧
      computeHashes (fun _ => 2 ^ 64 + 5) [] = (5, 12441895110094062994) := by
  have hpos : 0 < 2 ^ 64 := Nat.pow_pos (by decide)
  refine ⟨rfl, Nat.mod_lt _ hpos, ?_, by decide, by decide⟩
  simp only [computeHashes]
  apply Nat.xor_lt_two_pow (Nat.mod_lt _ hpos)
  rw [Nat.shiftRight_eq_div_pow]
  exact Nat.lt_of_le_of_lt (Nat.div_le_self _ _) (Nat.mod_lt _ hpos)

/-! ## Union and intersection against the subset test -/

theorem lor_land_right (a b : Nat) : (a ||| b) &&& b = b := by
  apply Nat.eq_of_testBit_eq
  intro t
  rw [Nat.testBit_and, Nat.testBit_or]
  cases a.testBit t <;> cases b.testBit t <;> rfl

theorem land_land_right (a b : Nat) : b &&& (a &&& b) = a &&& b := by
  apply Nat.eq_of_testBit_eq
  intro t
  rw [Nat.testBit_and, Nat.testBit_and]
  cases a.testBit t <;> cases b.testBit t <;> rfl

/-- C19: union and intersection agree with the subset test. For well-formed
filters `A` and `B` with the same `m` and `k`, `A.Union(B)` returns and on the
new receiver `Subset(B)` returns a nil error and `true`; `A.Intersection(B)`
returns and `B.Subset` of the new receiver returns a nil error and `true`. -/
theorem C19_union_intersection_subset (A B : BloomFilter) (hm : A.m = B.m) (hk : A.k = B.k)
    (hA : WellFormed A) (hB : WellFormed B) :
    (∃ A1, Union A B = some (A1, none) ∧ Subset A1 B = some (none, true)) ∧
      ∃ A2, Intersection A B = some (A2, none) ∧ Subset B A2 = some (none, true) := by
  have hlen := wellFormed_length_eq A B hm hA hB
  have herr := mismatchError_eq_none A B hm hk
  constructor
  · have hu := Union_eq A B (Nat.le_of_eq hlen)
    rw [herr] at hu
    obtain ⟨h1, h2, h3⟩ := Union_fields A B _ _ hu
    refine ⟨_, hu, ?_⟩
    obtain ⟨v, hv, hiff⟩ := Subset_eq
      { A with bit := List.zipWith (fun a b => a ||| b) A.bit B.bit } B (by rw [h3, hlen])
    rw [mismatchError_eq_none _ B (by rw [h1, hm]) (by rw [h2, hk])] at hv
    have hvt : v = true := by
      rw [hiff]
      intro i a b ha hb
      simp only at ha
      rw [List.getElem?_zipWith, hb] at ha
      cases hA0 : A.bit[i]? with
      | none => simp [hA0] at ha
      | some a0 =>
        simp only [hA0, Option.some.injEq] at ha
        rw [← ha]
        exact lor_land_right a0 b
    rw [hv, hvt]
  · have hu := Intersection_eq A B (Nat.le_of_eq hlen)
    rw [herr] at hu
    obtain ⟨h1, h2, h3⟩ := Intersection_fields A B _ _ hu
    refine ⟨_, hu, ?_⟩
    obtain ⟨v, hv, hiff⟩ := Subset_eq B
      { A with bit := List.zipWith (fun a b => a &&& b) A.bit B.bit } (by rw [h3, hlen])
    rw [mismatchError_eq_none B _ (by rw [h1, hm]) (by rw [h2, hk])] at hv
    have hvt : v = true := by
      rw [hiff]
      intro i b a hb ha
      simp only at ha
      rw [List.getElem?_zipWith, hb] at ha
      cases hA0 : A.bit[i]? with
      | none => simp [hA0] at ha
      | some a0 =>
        simp only [hA0, Option.some.injEq] at ha
        rw [← ha]
        exact land_land_right a0 b
    rw [hv, hvt]

/-- Witness of C19: two one-word filters with `m = 64`, `k = 1`. -/
theorem C19_union_intersection_subset_witness :
    (BloomFilter.mk 64 1 [3]).m = (BloomFilter.mk 64 1 [5]).m ∧
      (BloomFilter.mk 64 1 [3]).k = (BloomFilter.mk 64 1 [5]).k ∧
      WellFormed (BloomFilter.mk 64 1 [3]) ∧ WellFormed (BloomFilter.mk 64 1 [5]) ∧
      (∃ A1, Union (BloomFilter.mk 64 1 [3]) (BloomFilter.mk 64 1 [5]) = some (A1, none) ∧
        Subset A1 (BloomFilter.mk 64 1 [5]) = some (none, true)) ∧
      ∃ A2, Intersection (BloomFilter.mk 64 1 [3]) (BloomFilter.mk 64 1 [5]) = some (A2, none) ∧
        Subset (BloomFilter.mk 64 1 [5]) A2 = some (none, true) :=
  ⟨rfl, rfl, by decide, by decide,
    C19_union_intersection_subset (BloomFilter.mk 64 1 [3]) (BloomFilter.mk 64 1 [5]) rfl rfl
      (by decide) (by decide)⟩

/-! ## Error precedence -/

theorem mismatchError_both (bf1 bf2 : BloomFilter) (hk : bf1.k ≠ bf2.k) :
    mismatchError bf1 bf2 = some errMismatchedHashCounts := by
  simp [mismatchError, hk]

/-- C20: error precedence. When the two filters differ in both `m` and `k` and
the receiver has no more words than the operand, `Union`, `Intersection` and
`Subset` all return, and the one error each returns is the hash-count error,
which is not the size error. -/
theorem C20_hash_count_error_wins (A B : BloomFilter) (hm : A.m ≠ B.m) (hk : A.k ≠ B.k)
    (hlen : A.bit.length ≤ B.bit.length) :
    (∃ A1, Union A B = some (A1, some errMismatchedHashCounts)) ∧
      (∃ A2, Intersection A B = some (A2, some errMismatchedHashCounts)) ∧
      (∃ v, Subset A B = some (some errMismatchedHashCounts, v)) ∧
      errMismatchedHashCounts ≠ errMismatchedSizes ∧
      mismatchError { A with k := B.k } B = some errMismatchedSizes := by
  have herr := mismatchError_both A B hk
  refine ⟨⟨{ A with bit := List.zipWith (fun a b => a ||| b) A.bit B.bit }, ?_⟩,
    ⟨{ A with bit := List.zipWith (fun a b => a &&& b) A.bit B.bit }, ?_⟩, ?_, by decide, ?_⟩
  · rw [Union_eq A B hlen, herr]
  · rw [Intersection_eq A B hlen, herr]
  · obtain ⟨v, hv, _⟩ := Subset_eq A B hlen
    rw [herr] at hv
    exact ⟨v, hv⟩
  · simp [mismatchError, hm]

/-- Witness of C20: `New(100, 3)` against `New(200, 5)`. -/
theorem C20_hash_count_error_wins_witness :
    (New 100 3).m ≠ (New 200 5).m ∧ (New 100 3).k ≠ (New 200 5).k ∧
      (New 100 3).bit.length ≤ (New 200 5).bit.length ∧
      (∃ A1, Union (New 100 3) (New 200 5) = some (A1, some errMismatchedHashCounts)) ∧
      (∃ A2, Intersection (New 100 3) (New 200 5) = some (A2, some errMismatchedHashCounts)) ∧
      (∃ v, Subset (New 100 3) (New 200 5) = some (some errMismatchedHashCounts, v)) ∧
      errMismatchedHashCounts ≠ errMismatchedSizes ∧
      mismatchError { New 100 3 with k := (New 200 5).k } (New 200 5)
        = some errMismatchedSizes :=
  ⟨by decide, by decide, by decide,
    C20_hash_count_error_wins (New 100 3) (New 200 5) (by decide) (by decide) (by decide)⟩

/-! ## Parameter derivation -/

end bloomfilter
